import Mathlib

/-!
# Verification of `go_length_similarity`

A shallow embedding of the core of the `go_length_similarity` repository:
the similarity scorer, the streaming calculator, the normalizers, and the
word / line stream processors, together with theorems settling the claims
about them.

Conventions of the embedding:

* Bytes and Unicode code points (Go `byte` / `rune`) are modelled as `Nat`;
  byte strings as `List Nat`.  All arithmetic in the scanners is far below
  any overflow boundary, so no wrap-around modelling is needed.
* Go `float64` similarity arithmetic is modelled with exact rationals `ℚ`;
  the formulas involved (`min`, division, subtraction, comparison) are the
  ones from the source, written over `ℚ`.
* The Go standard-library `unicode` classification tables are external to
  the repository.  They are modelled by a parameter structure `Uni`; the
  values of the classifiers on the ASCII range (< 128), which the source
  bakes into its precomputed tables, are fixed concretely below.
* Readers (`io.Reader`) are modelled by the list of chunks they deliver
  before a clean end of stream; a failing stream is an `Except.error`.
-/

namespace LenSim

/-!
## ASCII classification facts

Values of Go's `unicode.IsPunct`, `unicode.IsSpace`, `unicode.IsUpper` and
`unicode.ToLower` on code points below 128.  The source precomputes tables
from exactly these calls (`allocation_efficient.go` init loop,
`part_003` init loops, `part_005` init loop), so the ASCII behaviour is a
fixed finite table, written out here.
-/

/-- Go `unicode.IsPunct` restricted to ASCII: the category-P code points.
`$ + < = > ^ ` | ~` are symbol categories, not punctuation. -/
def asciiIsPunct (r : Nat) : Bool :=
  r = 33 || r = 34 || r = 35 || r = 37 || r = 38 || r = 39 || r = 40 ||
  r = 41 || r = 42 || r = 44 || r = 45 || r = 46 || r = 47 || r = 58 ||
  r = 59 || r = 63 || r = 64 || r = 91 || r = 92 || r = 93 || r = 95 ||
  r = 123 || r = 125

/-- Go `unicode.IsSpace` restricted to ASCII: tab, LF, VT, FF, CR, space. -/
def asciiIsSpace (r : Nat) : Bool :=
  r = 9 || r = 10 || r = 11 || r = 12 || r = 13 || r = 32

/-- Go `unicode.IsUpper` restricted to ASCII: `A`‒`Z`. -/
def asciiIsUpper (r : Nat) : Bool :=
  decide (65 ≤ r) && decide (r ≤ 90)

/-- Go `unicode.ToLower` restricted to ASCII: shifts `A`‒`Z` by 32. -/
def asciiToLower (r : Nat) : Nat :=
  if 65 ≤ r ∧ r ≤ 90 then r + 32 else r

/-- The Go `unicode` package classifiers, as an abstract parameter.
Theorems that need facts about the non-ASCII behaviour of these tables
take them as explicit hypotheses. -/
structure Uni where
  isPunct : Nat → Bool
  isSpace : Nat → Bool
  isUpper : Nat → Bool
  isLetter : Nat → Bool
  isNumber : Nat → Bool
  toLower : Nat → Nat

/-- An instance of the classifier tables that agrees with Go's `unicode`
package on the ASCII range and classifies every higher code point as
plain (no category, `toLower` the identity).  Used to instantiate
theorems at concrete ASCII inputs. -/
def uniAscii : Uni where
  isPunct := asciiIsPunct
  isSpace := asciiIsSpace
  isUpper := asciiIsUpper
  isLetter := fun r => decide (97 ≤ r) && decide (r ≤ 122) || asciiIsUpper r
  isNumber := fun r => decide (48 ≤ r) && decide (r ≤ 57)
  toLower := asciiToLower

/-!
## Similarity scorer and calculators

`internal/adapters/stream/processor.go` (`ComputeStreaming`, lines 356‒464),
`internal/adapters/stream/streamingcalculator.go` (same logic), and
`internal/core/length/similarity.go` (`Compute`).
-/

/-- `ports.StreamingMode`. -/
inductive StreamingMode where
  | chunkByChunk
  | lineByLine
  | wordByWord
deriving DecidableEq

/-- `stream.StreamingConfig`. -/
structure StreamingConfig where
  threshold : ℚ
  maxDiffRatio : ℚ
  chunkSize : Int
  mode : StreamingMode

/-- `ports.StreamResult`.  The details map is modelled by its
string-valued entries (the numeric debug entries the source also stores
are not observed by any claim). -/
structure StreamResult where
  name : String
  score : ℚ
  passed : Bool
  originalLength : Nat
  augmentedLength : Nat
  lengthRatio : ℚ
  threshold : ℚ
  details : List (String × String)

/-- The scoring tail shared by both `ComputeStreaming` implementations and
by `length.Calculator.Compute` (source lines 423‒438 of `processor.go`):
branchy ratio, clamped difference ratio, score and threshold test. -/
def scoreOf (maxDiffRatio threshold : ℚ) (origCount augCount : Nat) :
    ℚ × ℚ × Bool :=
  let lengthRatio : ℚ :=
    if origCount > augCount then (augCount : ℚ) / (origCount : ℚ)
    else (origCount : ℚ) / (augCount : ℚ)
  let diff : ℚ := |((origCount : ℚ) - (augCount : ℚ))|
  let diffRatio0 : ℚ := diff / ((origCount : ℚ) * maxDiffRatio)
  let diffRatio : ℚ := if diffRatio0 > 1 then 1 else diffRatio0
  let scaledScore : ℚ := 1 - diffRatio
  (lengthRatio, scaledScore, decide (scaledScore ≥ threshold))

/-- `ComputeStreaming` (`processor.go` lines 356‒464 and the identical
`streamingcalculator.go` version): the two stream outcomes are the counts
returned by `ProcessStream`, or the error it surfaced. -/
def computeStreaming (cfg : StreamingConfig)
    (orig aug : Except String Nat) : StreamResult :=
  match orig with
  | .error e =>
      { name := "streaming_similarity", score := 0, passed := false
        originalLength := 0, augmentedLength := 0, lengthRatio := 0
        threshold := 0
        details := [("error", "error processing original stream: " ++ e)] }
  | .ok origCount =>
    match aug with
    | .error e =>
        { name := "streaming_similarity", score := 0, passed := false
          originalLength := 0, augmentedLength := 0, lengthRatio := 0
          threshold := 0
          details := [("error", "error processing augmented stream: " ++ e)] }
    | .ok augCount =>
      if origCount = 0 ∧ augCount = 0 then
        { name := "streaming_similarity", score := 1, passed := true
          originalLength := 0, augmentedLength := 0, lengthRatio := 1
          threshold := cfg.threshold
          details := [("note", "both texts are empty, considered identical")] }
      else if origCount = 0 then
        { name := "streaming_similarity", score := 0, passed := false
          originalLength := 0, augmentedLength := augCount, lengthRatio := 0
          threshold := cfg.threshold
          details := [("warning", "original text has zero length")] }
      else
        let r := scoreOf cfg.maxDiffRatio cfg.threshold origCount augCount
        { name := "streaming_similarity", score := r.2.1, passed := r.2.2
          originalLength := origCount, augmentedLength := augCount
          lengthRatio := r.1, threshold := cfg.threshold, details := [] }

/-- `domain.Result` of the non-streaming calculators. -/
structure DomainResult where
  name : String
  score : ℚ
  passed : Bool
  originalLength : Nat
  augmentedLength : Nat
  lengthRatio : ℚ
  threshold : ℚ
  details : List (String × String)

/-- Recursion core of `fields`, structurally recursive on a fuel that the
wrapper instantiates with the input length (each step strictly shortens
the list, so the fuel is never exhausted). -/
def fieldsAux (isSp : Nat → Bool) : Nat → List Nat → List (List Nat)
  | 0, _ => []
  | _, [] => []
  | fuel + 1, r :: rest =>
    if isSp r then fieldsAux isSp fuel rest
    else
      ((r :: rest).takeWhile (fun x => !isSp x)) ::
        fieldsAux isSp fuel (rest.dropWhile (fun x => !isSp x))

/-- `strings.Fields`: split a rune sequence on maximal runs of
`unicode.IsSpace` code points, keeping the non-empty groups. -/
def fields (isSp : Nat → Bool) (rs : List Nat) : List (List Nat) :=
  fieldsAux isSp rs.length rs

/-- `length.SimilarityConfig`. -/
structure SimilarityConfig where
  threshold : ℚ
  maxDiffRatio : ℚ

/-- `length.Calculator.Compute` (`similarity.go` lines 59‒148).  The
normalizer is the injected `ports.Normalizer`; `cancelled` models whether
the context's done channel is closed at the single check the source
performs; `isSp` models `unicode.IsSpace` as used by `strings.Fields`. -/
def lengthCompute (cfg : SimilarityConfig) (norm : List Nat → List Nat)
    (isSp : Nat → Bool) (cancelled : Bool)
    (original augmented : List Nat) : DomainResult :=
  let normalizedOriginal := norm original
  let normalizedAugmented := norm augmented
  if cancelled then
    { name := "length_similarity", score := 0, passed := false
      originalLength := 0, augmentedLength := 0, lengthRatio := 0
      threshold := 0, details := [("error", "computation cancelled")] }
  else
    let origLen := (fields isSp normalizedOriginal).length
    let augLen := (fields isSp normalizedAugmented).length
    if origLen = 0 then
      { name := "length_similarity", score := 0, passed := false
        originalLength := 0, augmentedLength := 0, lengthRatio := 0
        threshold := 0, details := [("error", "original text has zero words")] }
    else
      let r := scoreOf cfg.maxDiffRatio cfg.threshold origLen augLen
      { name := "length_similarity", score := r.2.1, passed := r.2.2
        originalLength := origLen, augmentedLength := augLen
        lengthRatio := r.1, threshold := cfg.threshold, details := [] }

/-!
## Constructors and validation

`length_similarity.go` `New` (lines 104‒126), `length.SimilarityConfig.Validate`
(`similarity.go` lines 28‒36), and `stream.NewStreamingCalculator`
(`processor.go` lines 344‒353).
-/

/-- `lengthsimilarity.New` (`length_similarity.go` lines 104‒126), with the
options already folded into the resulting threshold / max-diff-ratio pair:
eager validation, returning the configured instance or an error. -/
def lsNew (threshold maxDiffRatio : ℚ) : Except String SimilarityConfig :=
  if threshold < 0 ∨ threshold > 1 then
    .error "threshold must be between 0 and 1"
  else if maxDiffRatio ≤ 0 then
    .error "maxDiffRatio must be greater than 0"
  else
    .ok { threshold := threshold, maxDiffRatio := maxDiffRatio }

/-- `length.SimilarityConfig.Validate` (`similarity.go` lines 28‒36),
used by `length.NewCalculator`. -/
def configValidate (cfg : SimilarityConfig) : Except String Unit :=
  if cfg.threshold < 0 ∨ cfg.threshold > 1 then
    .error "threshold must be between 0 and 1"
  else if cfg.maxDiffRatio ≤ 0 then
    .error "maxDiffRatio must be greater than 0"
  else
    .ok ()

/-- `stream.NewStreamingCalculator` (`processor.go` lines 344‒353): builds
the processor and returns the calculator; it performs no validation of the
configuration and its error result is always nil. -/
def newStreamingCalculator (cfg : StreamingConfig) :
    Except String StreamingConfig :=
  .ok cfg

/-!
## UTF-8 decoding and encoding

`decodeRune` is the repository's own decoder
(`allocation_efficient.go` lines 262‒299, duplicated in `part_005`).
`encodeRune` is the inline encoder of `normalizeUnicode`
(`allocation_efficient.go` lines 231‒246).
-/

/-- The repository's `decodeRune`: returns the code point and the number
of bytes consumed; any invalid head consumes exactly one byte and yields
`U+FFFD` (65533). -/
def decodeRune : List Nat → Nat × Nat
  | [] => (0, 0)
  | b0 :: rest =>
    if b0 < 0x80 then (b0, 1)
    else if b0 < 0xC0 ∨ b0 > 0xF7 then (0xFFFD, 1)
    else if b0 < 0xE0 then
      match rest with
      | [] => (0xFFFD, 1)
      | b1 :: _ =>
        if b1 &&& 0xC0 ≠ 0x80 then (0xFFFD, 1)
        else (((b0 &&& 0x1F) <<< 6) ||| (b1 &&& 0x3F), 2)
    else if b0 < 0xF0 then
      match rest with
      | b1 :: b2 :: _ =>
        if b1 &&& 0xC0 ≠ 0x80 ∨ b2 &&& 0xC0 ≠ 0x80 then (0xFFFD, 1)
        else (((b0 &&& 0x0F) <<< 12) ||| ((b1 &&& 0x3F) <<< 6) ||| (b2 &&& 0x3F), 3)
      | _ => (0xFFFD, 1)
    else
      match rest with
      | b1 :: b2 :: b3 :: _ =>
        if b1 &&& 0xC0 ≠ 0x80 ∨ b2 &&& 0xC0 ≠ 0x80 ∨ b3 &&& 0xC0 ≠ 0x80 then
          (0xFFFD, 1)
        else
          (((b0 &&& 0x07) <<< 18) ||| ((b1 &&& 0x3F) <<< 12) |||
            ((b2 &&& 0x3F) <<< 6) ||| (b3 &&& 0x3F), 4)
      | _ => (0xFFFD, 1)

/-- The inline UTF-8 encoder of `normalizeUnicode`
(`allocation_efficient.go` lines 231‒246). -/
def encodeRune (lower : Nat) : List Nat :=
  if lower < 128 then [lower]
  else if lower < 2048 then
    [0xC0 ||| (lower >>> 6), 0x80 ||| (lower &&& 0x3F)]
  else if lower < 65536 then
    [0xE0 ||| (lower >>> 12), 0x80 ||| ((lower >>> 6) &&& 0x3F),
      0x80 ||| (lower &&& 0x3F)]
  else
    [0xF0 ||| (lower >>> 18), 0x80 ||| ((lower >>> 12) &&& 0x3F),
      0x80 ||| ((lower >>> 6) &&& 0x3F), 0x80 ||| (lower &&& 0x3F)]

/-!
## Normalizers

* `defaultNormalize`: `normalizer/default.go` `Normalize` (rune level:
  the source lowercases the string with `strings.ToLower`, then maps each
  punctuation rune to a space).
* `aeNormalize` with `normalizeASCII` / `normalizeUnicode`:
  `normalizer/allocation_efficient.go`, byte level.
* `optNormalize`: `part_003` `OptimizedNormalizer.Normalize`, rune level
  (its `[]byte(string(lower))` append followed by the next pass's rune
  decoding round-trips to the same code point for the valid code points
  `unicode.ToLower` produces).
* `fastNormalize`: `part_003` `FastNormalizer.Normalize`, rune level.
-/

/-- `DefaultNormalizer.Normalize` (`default.go` lines 19‒30):
`strings.ToLower`, then punctuation to spaces, rune by rune. -/
def defaultNormalize (u : Uni) (text : List Nat) : List Nat :=
  (text.map u.toLower).map fun r => if u.isPunct r then 32 else r

/-- One entry of the `AllocationEfficientNormalizer` ASCII decision table
(`allocation_efficient.go` lines 41‒67): `replace` and the replacement
character. -/
structure AETableEntry where
  replace : Bool
  char : Nat

/-- The `AllocationEfficientNormalizer` ASCII table: punctuation maps to a
space, uppercase maps to its lowercase form, everything else is kept. -/
def aeTable (b : Nat) : AETableEntry :=
  if asciiIsPunct b then ⟨true, 32⟩
  else if asciiIsUpper b then ⟨true, asciiToLower b⟩
  else ⟨false, 0⟩

/-- Loop body of `normalizeASCII` (`allocation_efficient.go` lines
151‒177), with the destination buffer made explicit as the returned list
and the `lastWasSpace` flag threaded through. -/
def normalizeASCIIAux : List Nat → Bool → List Nat
  | [], _ => []
  | b :: rest, lastWasSpace =>
    if b < 128 then
      let e := aeTable b
      if e.replace then
        if e.char = 32 then
          if lastWasSpace then normalizeASCIIAux rest true
          else 32 :: normalizeASCIIAux rest true
        else e.char :: normalizeASCIIAux rest false
      else b :: normalizeASCIIAux rest false
    else b :: normalizeASCIIAux rest false

/-- `normalizeASCII` (`allocation_efficient.go` lines 140‒180). -/
def normalizeASCII (src : List Nat) : List Nat :=
  normalizeASCIIAux src false

/-- Loop body of `normalizeUnicode` (`allocation_efficient.go` lines
196‒256): ASCII bytes through the table, multi-byte sequences through
`decodeRune`, with punctuation / whitespace collapsed to a single
space, uppercase re-encoded lowercase, and other sequences kept verbatim. -/
def normalizeUnicodeAux (u : Uni) : Nat → List Nat → Bool → List Nat
  | 0, _, _ => []
  | _, [], _ => []
  | fuel + 1, b :: rest, lastWasSpace =>
    if b < 128 then
      let e := aeTable b
      if e.replace then
        if e.char = 32 then
          if lastWasSpace then normalizeUnicodeAux u fuel rest true
          else 32 :: normalizeUnicodeAux u fuel rest true
        else e.char :: normalizeUnicodeAux u fuel rest false
      else b :: normalizeUnicodeAux u fuel rest false
    else
      let d := decodeRune (b :: rest)
      let tail := (b :: rest).drop d.2
      if u.isPunct d.1 || u.isSpace d.1 then
        if lastWasSpace then normalizeUnicodeAux u fuel tail true
        else 32 :: normalizeUnicodeAux u fuel tail true
      else if u.isUpper d.1 then
        encodeRune (u.toLower d.1) ++ normalizeUnicodeAux u fuel tail false
      else
        ((b :: rest).take d.2) ++ normalizeUnicodeAux u fuel tail false

/-- `normalizeUnicode` (`allocation_efficient.go` lines 183‒259); the
fuel equals the input length, which each step strictly decreases, so it
is never exhausted. -/
def normalizeUnicode (u : Uni) (src : List Nat) : List Nat :=
  normalizeUnicodeAux u src.length src false

/-- `IsASCIIOnly` (`part_005` lines 51‒58) and the inline ASCII check of
`Normalize`. -/
def isAsciiOnly (bs : List Nat) : Bool :=
  bs.all (fun b => decide (b < 128))

/-- `AllocationEfficientNormalizer.Normalize`
(`allocation_efficient.go` lines 73‒113): empty fast path, then the ASCII
fast path or the Unicode fallback. -/
def aeNormalize (u : Uni) (text : List Nat) : List Nat :=
  if text.length = 0 then []
  else if isAsciiOnly text then normalizeASCII text
  else normalizeUnicode u text

/-- The `OptimizedNormalizer` ASCII decision table (`part_003` lines
29‒41): `1` replaces punctuation *and whitespace* with a space, `2`
lowercases, `0` keeps. -/
def optTable (b : Nat) : Nat :=
  if asciiIsPunct b || asciiIsSpace b then 1
  else if asciiIsUpper b then 2
  else 0

/-- Loop body of `OptimizedNormalizer.Normalize` (`part_003` lines
72‒131); the ASCII-only fast path and the mixed path run the same
per-rune logic, modelled once at rune level. -/
def optNormalizeAux (u : Uni) : List Nat → Bool → List Nat
  | [], _ => []
  | r :: rest, lastWasSpace =>
    if r < 128 then
      if optTable r = 1 then
        if lastWasSpace then optNormalizeAux u rest true
        else 32 :: optNormalizeAux u rest true
      else if optTable r = 2 then
        (r + 32) :: optNormalizeAux u rest false
      else r :: optNormalizeAux u rest false
    else
      if u.isPunct r || u.isSpace r then
        if lastWasSpace then optNormalizeAux u rest true
        else 32 :: optNormalizeAux u rest true
      else u.toLower r :: optNormalizeAux u rest false

/-- `OptimizedNormalizer.Normalize` (`part_003` lines 47‒134). -/
def optNormalize (u : Uni) (text : List Nat) : List Nat :=
  optNormalizeAux u text false

/-- `FastNormalizer.Normalize` (`part_003` lines 190‒242): per-rune map
with no collapsing; ASCII through the punct/upper table, non-ASCII
punctuation to space, otherwise `unicode.ToLower`. -/
def fastNormalize (u : Uni) (text : List Nat) : List Nat :=
  text.map fun r =>
    if r < 128 then
      if asciiIsPunct r then 32
      else if asciiIsUpper r then asciiToLower r
      else r
    else
      if u.isPunct r then 32 else u.toLower r

/-!
## Go rune counting

The processors count characters with `len([]rune(normalized))`.  Go's
conversion decodes UTF-8 with the standard validity rules, one
replacement rune per invalid byte, so the rune count steps through the
bytes as follows.
-/

/-- Number of bytes of the first rune under Go's `utf8` decoding rules
(an invalid sequence consumes exactly one byte). -/
def goUtf8Size : List Nat → Nat
  | [] => 0
  | b0 :: rest =>
    if b0 < 0x80 then 1
    else if 0xC2 ≤ b0 ∧ b0 ≤ 0xDF then
      match rest with
      | b1 :: _ => if 0x80 ≤ b1 ∧ b1 ≤ 0xBF then 2 else 1
      | _ => 1
    else if 0xE0 ≤ b0 ∧ b0 ≤ 0xEF then
      match rest with
      | b1 :: b2 :: _ =>
        if (if b0 = 0xE0 then 0xA0 else 0x80) ≤ b1 ∧
            b1 ≤ (if b0 = 0xED then 0x9F else 0xBF) ∧
            0x80 ≤ b2 ∧ b2 ≤ 0xBF then 3 else 1
      | _ => 1
    else if 0xF0 ≤ b0 ∧ b0 ≤ 0xF4 then
      match rest with
      | b1 :: b2 :: b3 :: _ =>
        if (if b0 = 0xF0 then 0x90 else 0x80) ≤ b1 ∧
            b1 ≤ (if b0 = 0xF4 then 0x8F else 0xBF) ∧
            0x80 ≤ b2 ∧ b2 ≤ 0xBF ∧ 0x80 ≤ b3 ∧ b3 ≤ 0xBF then 4 else 1
      | _ => 1
    else 1

/-- Recursion core of `goRuneCount`, fueled by the input length. -/
def goRuneCountAux : Nat → List Nat → Nat
  | 0, _ => 0
  | _, [] => 0
  | fuel + 1, b :: rest =>
    1 + goRuneCountAux fuel ((b :: rest).drop (goUtf8Size (b :: rest)))

/-- `len([]rune(string(bs)))`. -/
def goRuneCount (bs : List Nat) : Nat :=
  goRuneCountAux bs.length bs

/-!
## Word processor

`wordprocessor/processor.go` (sequential, `processWordsOptimized`) and
`part_005` (`ASCIIWordChar` tables, `HandleUTF8`, `processWordsParallel`,
`wordWorker`).  All runs are on the counting path (`writer == nil`), so
the normalizer is never consulted.
-/

/-- The `ASCIIWordChar` table (`part_005` init loop, lines 18‒29):
letters, digits, underscore, hyphen, apostrophe. -/
def asciiWordChar (b : Nat) : Bool :=
  (decide (97 ≤ b) && decide (b ≤ 122)) ||
  (decide (65 ≤ b) && decide (b ≤ 90)) ||
  (decide (48 ≤ b) && decide (b ≤ 57)) ||
  decide (b = 95) || decide (b = 45) || decide (b = 39)

/-- `IsASCIIWordChar` (`part_005` lines 32‒37). -/
def isASCIIWordChar (b : Nat) : Bool :=
  if b < 128 then asciiWordChar b else false

/-- `IsWordChar` (`part_005` lines 40‒48). -/
def isWordChar (u : Uni) (r : Nat) : Bool :=
  if r < 128 then asciiWordChar r
  else u.isLetter r || u.isNumber r ||
    decide (r = 95) || decide (r = 45) || decide (r = 39)

/-- `HandleUTF8` (`part_005` lines 65‒74): code point, size and word-char
flag at the head of `bs` (only called on non-empty suffixes). -/
def handleUTF8 (u : Uni) (bs : List Nat) : Nat × Nat × Bool :=
  match bs with
  | [] => (0, 1, false)
  | b :: _ =>
    if b < 128 then (b, 1, asciiWordChar b)
    else
      let d := decodeRune bs
      (d.1, d.2, isWordChar u d.1)

/-- ASCII fast-path scan of `processWordsOptimized`
(`wordprocessor/processor.go` lines 133‒161, counting path): returns the
number of words terminated inside the chunk and the final `inWord`
state. -/
def scanWordsAscii : List Nat → Bool → Nat × Bool
  | [], inWord => (0, inWord)
  | b :: rest, inWord =>
    if isASCIIWordChar b then scanWordsAscii rest true
    else if inWord then
      let r := scanWordsAscii rest false
      (r.1 + 1, r.2)
    else scanWordsAscii rest false

/-- Non-ASCII scan of `processWordsOptimized`
(`wordprocessor/processor.go` lines 167‒198, counting path): steps by the
size `HandleUTF8` reports. -/
def scanWordsUTF8Aux (u : Uni) : Nat → List Nat → Bool → Nat × Bool
  | 0, _, inWord => (0, inWord)
  | _, [], inWord => (0, inWord)
  | fuel + 1, b :: rest, inWord =>
    let h := handleUTF8 u (b :: rest)
    let tail := (b :: rest).drop h.2.1
    if h.2.2 then scanWordsUTF8Aux u fuel tail true
    else if inWord then
      let r := scanWordsUTF8Aux u fuel tail false
      (r.1 + 1, r.2)
    else scanWordsUTF8Aux u fuel tail false

/-- Wrapper for the non-ASCII scan; the fuel equals the input length,
which each step strictly decreases. -/
def scanWordsUTF8 (u : Uni) (bs : List Nat) (inWord : Bool) : Nat × Bool :=
  scanWordsUTF8Aux u bs.length bs inWord

/-- One non-empty chunk of `processWordsOptimized`
(`wordprocessor/processor.go` lines 122‒224): the scan, followed by the
end-of-chunk check `inWord && !lastWordChar` in which `lastWordChar`
classifies the chunk's *last byte* (through `IsASCIIWordChar` on the
ASCII path and `HandleUTF8` at offset `n-1` otherwise). -/
def processWordChunk (u : Uni) (chunk : List Nat) (inWord : Bool) :
    Nat × Bool :=
  match chunk with
  | [] => (0, inWord)
  | _ =>
    let s := if isAsciiOnly chunk then scanWordsAscii chunk inWord
      else scanWordsUTF8 u chunk inWord
    let lastWordChar :=
      if isAsciiOnly chunk then isASCIIWordChar (chunk.getLastD 0)
      else (handleUTF8 u (chunk.drop (chunk.length - 1))).2.2
    if s.2 && !lastWordChar then (s.1 + 1, false) else s

/-- `processWordsOptimized` (`wordprocessor/processor.go` lines 85‒250)
over the chunks a reader delivers before a clean end of stream; the final
word still open at end of stream is counted (lines 234‒236). -/
def processWordsSeq (u : Uni) (chunks : List (List Nat)) : Nat :=
  let st := chunks.foldl
    (fun (st : Nat × Bool) c =>
      let r := processWordChunk u c st.2
      (st.1 + r.1, r.2))
    (0, false)
  if st.2 then st.1 + 1 else st.1

/-- The job list dispatched by the `processWordsParallel` producer
(`part_005` lines 195‒261): each non-empty chunk becomes one job whose
`StartWord` flag is carried over; the carried flag is always computed
with the ASCII test `IsASCIIWordChar(chunk[n-1])` (lines 238‒242). -/
def wordJobs : List (List Nat) → Bool → List (List Nat × Bool)
  | [], _ => []
  | c :: cs, inWord =>
    match c with
    | [] => wordJobs cs inWord
    | _ => (c, inWord) :: wordJobs cs (isASCIIWordChar (c.getLastD 0))

/-- `wordWorker` on one job (`part_005` lines 316‒432, counting path):
the same chunk scan as the sequential path; the `EndWord` flag is
computed but never consumed by the collector. -/
def wordWorkerCount (u : Uni) (job : List Nat × Bool) : Nat :=
  (if isAsciiOnly job.1 then scanWordsAscii job.1 job.2
    else scanWordsUTF8 u job.1 job.2).1

/-- `processWordsParallel` (`part_005` lines 161‒313): the collector adds
the per-job counts in sequence order; no end-of-stream word is added. -/
def processWordsParallel (u : Uni) (chunks : List (List Nat)) : Nat :=
  ((wordJobs chunks false).map (wordWorkerCount u)).sum

/-!
## Line processor

`lineprocessor/processor.go`: `processLinesOptimized` (sequential path),
`processLine`, and `processLinesParallel`.
-/

/-- `processLine` (`lineprocessor/processor.go` lines 442‒457, counting
path): empty lines contribute nothing; otherwise the rune count of the
normalized line (`len([]rune(normalized))`) is added.  `norm` is the
injected `ports.Normalizer`. -/
def processLineCount (norm : List Nat → List Nat) (line : List Nat) :
    Nat :=
  if line.length = 0 then 0 else goRuneCount (norm line)

/-- Inner scan of one chunk of `processLinesOptimized`
(`lineprocessor/processor.go` lines 357‒404): emits a `processLine` count
for each line ending inside the chunk and returns the trailing segment
`chunk[lineStart:]`.  A `CR` immediately followed by `LF` in the same
chunk stays in the current segment (the `line = chunk[lineStart:i]`
slice taken at the following `LF` includes it); a `CR` that is the last
byte of the chunk, or not followed by `LF`, ends a line at once. -/
def scanLineChunk (pl : List Nat → Nat) :
    List Nat → List Nat → Nat × List Nat
  | [], seg => (0, seg)
  | b :: rest, seg =>
    if b = 10 then
      let r := scanLineChunk pl rest []
      (pl seg + r.1, r.2)
    else if b = 13 then
      match rest with
      | 10 :: _ => scanLineChunk pl rest (seg ++ [13])
      | _ =>
        let r := scanLineChunk pl rest []
        (pl seg + r.1, r.2)
    else scanLineChunk pl rest (seg ++ [b])

/-- `processLinesOptimized` (`lineprocessor/processor.go` lines 312‒439)
over the chunks a reader delivers: each chunk is scanned on its own; a
trailing segment is appended to the carried `lineBuffer`, which the
source only ever processes at end of stream (it is never merged into the
scan of a later chunk). -/
def processLinesSeq (norm : List Nat → List Nat)
    (chunks : List (List Nat)) : Nat :=
  let pl := processLineCount norm
  let st := chunks.foldl
    (fun (st : Nat × List Nat × Bool) c =>
      let r := scanLineChunk pl c []
      (st.1 + r.1,
        if r.2 ≠ [] then (st.2.1 ++ r.2, true) else (st.2.1, st.2.2)))
    (0, [], false)
  if st.2.2 ∧ st.2.1 ≠ [] then st.1 + pl st.2.1 else st.1

/-- `bytes.Split(bs, [LF])`. -/
def splitLF : List Nat → List (List Nat)
  | [] => [[]]
  | b :: rest =>
    if b = 10 then [] :: splitLF rest
    else
      match splitLF rest with
      | s :: ss => (b :: s) :: ss
      | [] => [[b]]

/-- The jobs sent by the `processLinesParallel` producer
(`lineprocessor/processor.go` lines 160‒273): a carried partial line is
completed by the bytes up to the chunk's first `LF`; the remaining bytes
are split on `LF`, with the last segment carried when the chunk does not
end in `LF` and the non-empty complete segments dispatched; at end of
stream a non-empty carried segment is dispatched.  Only `LF` delimits:
`CR` bytes stay inside the lines. -/
def lineJobs : List (List Nat) → List Nat → List (List Nat)
  | [], pend => if pend ≠ [] then [pend] else []
  | c :: cs, pend =>
    match c with
    | [] => lineJobs cs pend
    | _ =>
      if pend ≠ [] then
        match c.findIdx? (fun x => x = 10) with
        | none => lineJobs cs (pend ++ c)
        | some idx =>
          let completeLine := pend ++ c.take idx
          let restSegs := splitLF (c.drop (idx + 1))
          if c.getLastD 0 ≠ 10 then
            completeLine ::
              (restSegs.dropLast.filter (fun l => l ≠ [])) ++
                lineJobs cs (restSegs.getLastD [])
          else
            completeLine ::
              (restSegs.filter (fun l => l ≠ [])) ++ lineJobs cs []
      else
        let segs := splitLF c
        if c.getLastD 0 ≠ 10 then
          (segs.dropLast.filter (fun l => l ≠ [])) ++
            lineJobs cs (segs.getLastD [])
        else
          (segs.filter (fun l => l ≠ [])) ++ lineJobs cs []

/-- `processLinesParallel` total (`lineprocessor/processor.go` lines
104‒309): each worker normalizes its job and counts runes (lines
130‒148); the collector sums the counts. -/
def processLinesParallel (norm : List Nat → List Nat)
    (chunks : List (List Nat)) : Nat :=
  ((lineJobs chunks []).map (fun l => goRuneCount (norm l))).sum

/-- Recursion core of `chunksOf`, fueled by the input length. -/
def chunksOfAux (k : Nat) : Nat → List Nat → List (List Nat)
  | 0, _ => []
  | fuel + 1, text =>
    if k = 0 ∨ text = [] then []
    else (text.take k) :: chunksOfAux k fuel (text.drop k)

/-- A reader delivering `text` in chunks of `k` bytes. -/
def chunksOf (k : Nat) (text : List Nat) : List (List Nat) :=
  chunksOfAux k text.length text

/-- ASCII text literals for concrete inputs. -/
def bytesOfAscii (s : String) : List Nat :=
  s.toList.map Char.toNat

/-!
## Facts about the Go unicode tables

The idempotence proofs need a handful of facts about the full
`unicode` classifiers, all true of the real tables:

* simple case folding is idempotent, and the lowercase image of a cased
  letter is a letter — never punctuation, whitespace, or (below 128) an
  uppercase ASCII letter;
* a code point without a lowercase mapping is its own lowercase form;
* `U+FFFD` (the replacement character produced for invalid bytes) is a
  symbol: not punctuation, not whitespace, not uppercase;
* the space character is its own lowercase form and not punctuation;
* lowercase forms of cased letters are valid code points (< `0x110000`).
-/

/-- The facts about Go's `unicode` tables that the idempotence theorems
assume; all hold of the real tables (see the section comment). -/
structure UniSane (u : Uni) : Prop where
  lowerIdem : ∀ r, u.toLower (u.toLower r) = u.toLower r
  lowerSpace : u.toLower 32 = 32
  punctSpace : u.isPunct 32 = false
  fffdPunct : u.isPunct 0xFFFD = false
  fffdSpace : u.isSpace 0xFFFD = false
  fffdUpper : u.isUpper 0xFFFD = false
  upperLowerRange : ∀ r, u.isUpper r = true → 128 ≤ u.toLower r →
    u.toLower r < 0x110000
  lowerClassAE : ∀ r, u.isUpper r = true →
    (u.toLower r < 128 → (aeTable (u.toLower r)).replace = false) ∧
    (128 ≤ u.toLower r → u.isPunct (u.toLower r) = false ∧
      u.isSpace (u.toLower r) = false)
  lowerClassOpt : ∀ r, 128 ≤ r → u.isPunct r = false → u.isSpace r = false →
    (u.toLower r < 128 → optTable (u.toLower r) = 0) ∧
    (128 ≤ u.toLower r → u.isPunct (u.toLower r) = false ∧
      u.isSpace (u.toLower r) = false)
  lowerClassFast : ∀ r, 128 ≤ r → u.isPunct r = false →
    (u.toLower r < 128 → asciiIsPunct (u.toLower r) = false ∧
      asciiIsUpper (u.toLower r) = false) ∧
    (128 ≤ u.toLower r → u.isPunct (u.toLower r) = false)

/-- Proof-infrastructure wrapper: `normalizeUnicodeAux` at its canonical
fuel, so that `normalizeUnicode u src = nuN u src false`. -/
def nuN (u : Uni) (text : List Nat) (sp : Bool) : List Nat :=
  normalizeUnicodeAux u text.length text sp

/-- `HeadRel t y` relates an input tail `t` to a produced output `y`:
either both are empty, or both start with the same continuation byte and
the relation holds for the remainders, or the input head is not a
continuation byte and the output is non-empty with a non-continuation
head. -/
inductive HeadRel : List Nat → List Nat → Prop where
  | nil : HeadRel [] []
  | contHead (c : Nat) (t y : List Nat) (hc : c &&& 0xC0 = 0x80)
      (h : HeadRel t y) : HeadRel (c :: t) (c :: y)
  | freeHead (c : Nat) (t y : List Nat) (hc : ¬c &&& 0xC0 = 0x80)
      (hy : y ≠ []) (hhead : ¬y.headD 0 &&& 0xC0 = 0x80) :
      HeadRel (c :: t) y

/-- The C5 amended claim as a reference normalizer, written from the
amended words: a punctuation code point emits a single space unless the
immediately preceding emitted character was a space emitted by this rule;
an uppercase code point emits its lowercase form; every other code point
(whitespace included) is emitted unchanged and resets the collapse flag;
the empty string maps to itself. -/
def amendedAsciiNormalize : List Nat → Bool → List Nat
  | [], _ => []
  | b :: rest, sp =>
    if asciiIsPunct b then
      if sp then amendedAsciiNormalize rest true
      else 32 :: amendedAsciiNormalize rest true
    else if asciiIsUpper b then
      asciiToLower b :: amendedAsciiNormalize rest false
    else b :: amendedAsciiNormalize rest false

/-- Counting and leftover for a segment list: the count of all segments
but the last, and the last segment as leftover. -/
def lineTotals (pl : List Nat → Nat) : List (List Nat) → Nat × List Nat
  | [] => (0, [])
  | [s] => (0, s)
  | s :: rest => ((lineTotals pl rest).1 + pl s, (lineTotals pl rest).2)

/-- Dropping a prefix never lengthens a list. -/
theorem length_dropWhile_le' {α : Type} (p : α → Bool) (l : List α) :
    (l.dropWhile p).length ≤ l.length := by
  induction l with
  | nil => simp [List.dropWhile]
  | cons a t ih =>
    by_cases h : p a <;> simp [List.dropWhile, h] <;> omega

/-- On a non-empty input `decodeRune` consumes at least one byte. -/
theorem decodeRune_size_pos (b : Nat) (rest : List Nat) :
    1 ≤ (decodeRune (b :: rest)).2 := by
  simp only [decodeRune]
  repeat' split
  all_goals (try (exfalso; simp_all; done))
  all_goals simp

/-- `decodeRune` never consumes more bytes than the input has. -/
theorem decodeRune_size_le (b : Nat) (rest : List Nat) :
    (decodeRune (b :: rest)).2 ≤ (b :: rest).length := by
  simp only [decodeRune]
  repeat' split
  all_goals (try (exfalso; simp_all; done))
  all_goals simp_all [List.length_cons]
  all_goals omega

/-- `goUtf8Size` consumes at least one byte of a non-empty input. -/
theorem goUtf8Size_pos (b : Nat) (rest : List Nat) :
    1 ≤ goUtf8Size (b :: rest) := by
  simp only [goUtf8Size]
  repeat' split
  all_goals simp

/-- `handleUTF8` consumes at least one byte. -/
theorem handleUTF8_size_pos (u : Uni) (bs : List Nat) :
    1 ≤ (handleUTF8 u bs).2.1 := by
  match bs with
  | [] => simp [handleUTF8]
  | b :: rest =>
    simp only [handleUTF8]
    split
    · simp
    · exact decodeRune_size_pos b rest

/-- The ASCII-only instance satisfies the table facts. -/
theorem uniAsciiSane : UniSane uniAscii := by
  have hlow : ∀ r, uniAscii.toLower r = asciiToLower r := fun _ => rfl
  refine ⟨?_, by decide, by decide, by decide, by decide, by decide,
    ?_, ?_, ?_, ?_⟩
  · intro r
    simp only [uniAscii, asciiToLower]
    split_ifs with h1 h2
    · omega
    · rfl
    · rfl
  · intro r hr hge
    simp only [uniAscii, asciiIsUpper, Bool.and_eq_true, decide_eq_true_eq] at hr
    simp only [uniAscii, asciiToLower, if_pos hr] at hge ⊢
    omega
  · intro r hr
    simp only [uniAscii, asciiIsUpper, Bool.and_eq_true, decide_eq_true_eq] at hr
    simp only [uniAscii, asciiToLower, if_pos hr]
    constructor
    · intro _
      have h1 : asciiIsPunct (r + 32) = false := by
        simp only [asciiIsPunct, Bool.or_eq_false_iff, decide_eq_false_iff_not]
        omega
      have h2 : asciiIsUpper (r + 32) = false := by
        simp only [asciiIsUpper, Bool.and_eq_false_iff, decide_eq_false_iff_not]
        omega
      simp [aeTable, h1, h2]
    · intro hge
      omega
  · intro r hr hp hs
    have hl : uniAscii.toLower r = r := by
      simp only [uniAscii, asciiToLower]
      rw [if_neg]
      omega
    rw [hl]
    exact ⟨fun h => absurd h (by omega), fun _ => ⟨hp, hs⟩⟩
  · intro r hr hp
    have hl : uniAscii.toLower r = r := by
      simp only [uniAscii, asciiToLower]
      rw [if_neg]
      omega
    rw [hl]
    exact ⟨fun h => absurd h (by omega), fun _ => hp⟩

/-!
### Equations for `decodeRune` and the UTF-8 round trip
-/

/-- ASCII byte. -/
theorem decodeRune_ascii (b : Nat) (rest : List Nat) (h : b < 0x80) :
    decodeRune (b :: rest) = (b, 1) := by
  simp [decodeRune, h]

/-- Invalid head byte. -/
theorem decodeRune_badHead (b : Nat) (rest : List Nat)
    (h1 : ¬b < 0x80) (h2 : b < 0xC0 ∨ b > 0xF7) :
    decodeRune (b :: rest) = (0xFFFD, 1) := by
  simp only [decodeRune, if_neg h1, if_pos h2]

/-- Two-byte head with empty tail. -/
theorem decodeRune_two_nil (b : Nat)
    (h1 : ¬b < 0x80) (h2 : ¬(b < 0xC0 ∨ b > 0xF7)) (h3 : b < 0xE0) :
    decodeRune [b] = (0xFFFD, 1) := by
  simp only [decodeRune, if_neg h1, if_neg h2, if_pos h3]

/-- Two-byte head with a non-continuation next byte. -/
theorem decodeRune_two_bad (b b1 : Nat) (rest : List Nat)
    (h1 : ¬b < 0x80) (h2 : ¬(b < 0xC0 ∨ b > 0xF7)) (h3 : b < 0xE0)
    (hc : b1 &&& 0xC0 ≠ 0x80) :
    decodeRune (b :: b1 :: rest) = (0xFFFD, 1) := by
  simp only [decodeRune, if_neg h1, if_neg h2, if_pos h3, if_pos hc]

/-- Valid two-byte sequence. -/
theorem decodeRune_two_ok (b b1 : Nat) (rest : List Nat)
    (h1 : ¬b < 0x80) (h2 : ¬(b < 0xC0 ∨ b > 0xF7)) (h3 : b < 0xE0)
    (hc : b1 &&& 0xC0 = 0x80) :
    decodeRune (b :: b1 :: rest)
      = (((b &&& 0x1F) <<< 6) ||| (b1 &&& 0x3F), 2) := by
  simp only [decodeRune, if_neg h1, if_neg h2, if_pos h3]
  rw [if_neg (by simp [hc])]

/-- Three-byte head with fewer than two following bytes. -/
theorem decodeRune_three_short (b : Nat) (rest : List Nat)
    (h1 : ¬b < 0x80) (h2 : ¬(b < 0xC0 ∨ b > 0xF7)) (h3 : ¬b < 0xE0)
    (h4 : b < 0xF0) (hshort : rest.length < 2) :
    decodeRune (b :: rest) = (0xFFFD, 1) := by
  match rest with
  | [] => simp only [decodeRune, if_neg h1, if_neg h2, if_neg h3, if_pos h4]
  | [b1] => simp only [decodeRune, if_neg h1, if_neg h2, if_neg h3, if_pos h4]
  | b1 :: b2 :: r =>
    simp only [List.length_cons] at hshort
    omega

/-- Three-byte head with a non-continuation byte. -/
theorem decodeRune_three_bad (b b1 b2 : Nat) (rest : List Nat)
    (h1 : ¬b < 0x80) (h2 : ¬(b < 0xC0 ∨ b > 0xF7)) (h3 : ¬b < 0xE0)
    (h4 : b < 0xF0) (hc : b1 &&& 0xC0 ≠ 0x80 ∨ b2 &&& 0xC0 ≠ 0x80) :
    decodeRune (b :: b1 :: b2 :: rest) = (0xFFFD, 1) := by
  simp only [decodeRune, if_neg h1, if_neg h2, if_neg h3, if_pos h4,
    if_pos hc]

/-- Valid three-byte sequence. -/
theorem decodeRune_three_ok (b b1 b2 : Nat) (rest : List Nat)
    (h1 : ¬b < 0x80) (h2 : ¬(b < 0xC0 ∨ b > 0xF7)) (h3 : ¬b < 0xE0)
    (h4 : b < 0xF0) (hc1 : b1 &&& 0xC0 = 0x80) (hc2 : b2 &&& 0xC0 = 0x80) :
    decodeRune (b :: b1 :: b2 :: rest)
      = (((b &&& 0x0F) <<< 12) ||| ((b1 &&& 0x3F) <<< 6) ||| (b2 &&& 0x3F),
          3) := by
  simp only [decodeRune, if_neg h1, if_neg h2, if_neg h3, if_pos h4]
  rw [if_neg (by simp [hc1, hc2])]

/-- Four-byte head with fewer than three following bytes. -/
theorem decodeRune_four_short (b : Nat) (rest : List Nat)
    (h1 : ¬b < 0x80) (h2 : ¬(b < 0xC0 ∨ b > 0xF7)) (h3 : ¬b < 0xE0)
    (h4 : ¬b < 0xF0) (hshort : rest.length < 3) :
    decodeRune (b :: rest) = (0xFFFD, 1) := by
  match rest with
  | [] => simp only [decodeRune, if_neg h1, if_neg h2, if_neg h3, if_neg h4]
  | [b1] => simp only [decodeRune, if_neg h1, if_neg h2, if_neg h3, if_neg h4]
  | [b1, b2] =>
    simp only [decodeRune, if_neg h1, if_neg h2, if_neg h3, if_neg h4]
  | b1 :: b2 :: b3 :: r =>
    simp only [List.length_cons] at hshort
    omega

/-- Four-byte head with a non-continuation byte. -/
theorem decodeRune_four_bad (b b1 b2 b3 : Nat) (rest : List Nat)
    (h1 : ¬b < 0x80) (h2 : ¬(b < 0xC0 ∨ b > 0xF7)) (h3 : ¬b < 0xE0)
    (h4 : ¬b < 0xF0)
    (hc : b1 &&& 0xC0 ≠ 0x80 ∨ b2 &&& 0xC0 ≠ 0x80 ∨ b3 &&& 0xC0 ≠ 0x80) :
    decodeRune (b :: b1 :: b2 :: b3 :: rest) = (0xFFFD, 1) := by
  simp only [decodeRune, if_neg h1, if_neg h2, if_neg h3, if_neg h4,
    if_pos hc]

/-- Valid four-byte sequence. -/
theorem decodeRune_four_ok (b b1 b2 b3 : Nat) (rest : List Nat)
    (h1 : ¬b < 0x80) (h2 : ¬(b < 0xC0 ∨ b > 0xF7)) (h3 : ¬b < 0xE0)
    (h4 : ¬b < 0xF0) (hc1 : b1 &&& 0xC0 = 0x80) (hc2 : b2 &&& 0xC0 = 0x80)
    (hc3 : b3 &&& 0xC0 = 0x80) :
    decodeRune (b :: b1 :: b2 :: b3 :: rest)
      = (((b &&& 0x07) <<< 18) ||| ((b1 &&& 0x3F) <<< 12) |||
          ((b2 &&& 0x3F) <<< 6) ||| (b3 &&& 0x3F), 4) := by
  simp only [decodeRune, if_neg h1, if_neg h2, if_neg h3, if_neg h4]
  rw [if_neg (by simp [hc1, hc2, hc3])]

/-- Properties of a two-byte leading byte `0xC0 ||| y`. -/
theorem head2_props : ∀ y, y < 0x20 →
    ¬(0xC0 ||| y) < 0x80 ∧ ¬((0xC0 ||| y) < 0xC0 ∨ (0xC0 ||| y) > 0xF7) ∧
    (0xC0 ||| y) < 0xE0 ∧ (0xC0 ||| y) &&& 0x1F = y ∧
    (0xC0 ||| y) &&& 0xC0 ≠ 0x80 := by decide

/-- Properties of a three-byte leading byte `0xE0 ||| y`. -/
theorem head3_props : ∀ y, y < 0x10 →
    ¬(0xE0 ||| y) < 0x80 ∧ ¬((0xE0 ||| y) < 0xC0 ∨ (0xE0 ||| y) > 0xF7) ∧
    ¬(0xE0 ||| y) < 0xE0 ∧ (0xE0 ||| y) < 0xF0 ∧
    (0xE0 ||| y) &&& 0x0F = y ∧ (0xE0 ||| y) &&& 0xC0 ≠ 0x80 := by decide

/-- Properties of a four-byte leading byte `0xF0 ||| y`. -/
theorem head4_props : ∀ y, y < 0x8 →
    ¬(0xF0 ||| y) < 0x80 ∧ ¬((0xF0 ||| y) < 0xC0 ∨ (0xF0 ||| y) > 0xF7) ∧
    ¬(0xF0 ||| y) < 0xE0 ∧ ¬(0xF0 ||| y) < 0xF0 ∧
    (0xF0 ||| y) &&& 0x07 = y ∧ (0xF0 ||| y) &&& 0xC0 ≠ 0x80 := by decide

/-- Properties of a continuation byte `0x80 ||| y`. -/
theorem cont_props : ∀ y, y < 0x40 →
    (0x80 ||| y) &&& 0xC0 = 0x80 ∧ (0x80 ||| y) &&& 0x3F = y ∧
    ¬(0x80 ||| y) < 0x80 := by decide

/-- `x &&& 0x3F` is `x % 64`. -/
theorem and_3f (x : Nat) : x &&& 0x3F = x % 64 := by
  have h := Nat.and_pow_two_sub_one_eq_mod x 6
  norm_num at h
  exact h

/-- `x >>> k` as division. -/
theorem shr_div (x k : Nat) : x >>> k = x / 2 ^ k :=
  Nat.shiftRight_eq_div_pow x k

/-- Recombining shifted 6-bit groups. -/
theorem lor_group (a b : Nat) (hb : b < 2 ^ k) :
    (a <<< k) ||| b = a * 2 ^ k + b := by
  rw [Nat.shiftLeft_eq]
  rw [mul_comm]
  exact (Nat.mul_add_lt_is_or hb a).symm

/-- Decoding an encoded code point consumes exactly its bytes, whatever
follows, and recovers the code point. -/
theorem decode_encode (l : Nat) (hge : 128 ≤ l) (hlt : l < 0x110000)
    (tail : List Nat) :
    decodeRune (encodeRune l ++ tail) = (l, (encodeRune l).length) := by
  by_cases hb2 : l < 2048
  · have e0 : encodeRune l = [0xC0 ||| (l >>> 6), 0x80 ||| (l &&& 0x3F)] := by
      unfold encodeRune
      rw [if_neg (by omega), if_pos hb2]
    have hylt : l >>> 6 < 0x20 := by rw [shr_div]; omega
    have hzlt : l &&& 0x3F < 0x40 := by rw [and_3f]; omega
    have hp := head2_props _ hylt
    have hc := cont_props _ hzlt
    rw [e0]
    simp only [List.cons_append, List.nil_append, List.length_cons,
      List.length_nil]
    rw [decodeRune_two_ok _ _ _ hp.1 hp.2.1 hp.2.2.1 hc.1,
      hp.2.2.2.1, hc.2.1]
    rw [lor_group _ _ (by rw [and_3f]; omega : l &&& 0x3F < 2 ^ 6)]
    rw [shr_div, and_3f]
    norm_num
    omega
  · by_cases hb3 : l < 65536
    · have e0 : encodeRune l
          = [0xE0 ||| (l >>> 12), 0x80 ||| ((l >>> 6) &&& 0x3F),
             0x80 ||| (l &&& 0x3F)] := by
        unfold encodeRune
        rw [if_neg (by omega), if_neg (by omega), if_pos hb3]
      have hylt : l >>> 12 < 0x10 := by rw [shr_div]; omega
      have hz1 : (l >>> 6) &&& 0x3F < 0x40 := by rw [and_3f]; omega
      have hz2 : l &&& 0x3F < 0x40 := by rw [and_3f]; omega
      have hp := head3_props _ hylt
      have hc1 := cont_props _ hz1
      have hc2 := cont_props _ hz2
      rw [e0]
      simp only [List.cons_append, List.nil_append, List.length_cons,
        List.length_nil]
      rw [decodeRune_three_ok _ _ _ _ hp.1 hp.2.1 hp.2.2.1 hp.2.2.2.1
        hc1.1 hc2.1, hp.2.2.2.2.1, hc1.2.1, hc2.2.1]
      have s1 : ((l >>> 6) &&& 0x3F) <<< 6 = ((l >>> 6) &&& 0x3F) * 64 := by
        rw [Nat.shiftLeft_eq]
      have s2 : (l >>> 12) <<< 12 ||| ((l >>> 6) &&& 0x3F) * 64
          = (l >>> 12) * 4096 + ((l >>> 6) &&& 0x3F) * 64 := by
        have h := lor_group (k := 12) (l >>> 12) (((l >>> 6) &&& 0x3F) * 64)
          (by rw [and_3f]; omega)
        simpa using h
      have s3 : (l >>> 12) * 4096 + ((l >>> 6) &&& 0x3F) * 64
          = ((l >>> 12) * 64 + ((l >>> 6) &&& 0x3F)) <<< 6 := by
        rw [Nat.shiftLeft_eq]
        ring_nf
      rw [s1, s2, s3,
        lor_group _ _ (by rw [and_3f]; omega : l &&& 0x3F < 2 ^ 6)]
      rw [shr_div, shr_div, and_3f, and_3f]
      norm_num
      omega
    · have e0 : encodeRune l
          = [0xF0 ||| (l >>> 18), 0x80 ||| ((l >>> 12) &&& 0x3F),
             0x80 ||| ((l >>> 6) &&& 0x3F), 0x80 ||| (l &&& 0x3F)] := by
        unfold encodeRune
        rw [if_neg (by omega), if_neg (by omega), if_neg (by omega)]
      have hylt : l >>> 18 < 0x8 := by rw [shr_div]; omega
      have hz1 : (l >>> 12) &&& 0x3F < 0x40 := by rw [and_3f]; omega
      have hz2 : (l >>> 6) &&& 0x3F < 0x40 := by rw [and_3f]; omega
      have hz3 : l &&& 0x3F < 0x40 := by rw [and_3f]; omega
      have hp := head4_props _ hylt
      have hc1 := cont_props _ hz1
      have hc2 := cont_props _ hz2
      have hc3 := cont_props _ hz3
      rw [e0]
      simp only [List.cons_append, List.nil_append, List.length_cons,
        List.length_nil]
      rw [decodeRune_four_ok _ _ _ _ _ hp.1 hp.2.1 hp.2.2.1 hp.2.2.2.1
        hc1.1 hc2.1 hc3.1, hp.2.2.2.2.1, hc1.2.1, hc2.2.1, hc3.2.1]
      have s1 : ((l >>> 12) &&& 0x3F) <<< 12
          = ((l >>> 12) &&& 0x3F) * 4096 := by
        rw [Nat.shiftLeft_eq]
      have s2 : (l >>> 18) <<< 18 ||| ((l >>> 12) &&& 0x3F) * 4096
          = (l >>> 18) * 262144 + ((l >>> 12) &&& 0x3F) * 4096 := by
        have h := lor_group (k := 18) (l >>> 18)
          (((l >>> 12) &&& 0x3F) * 4096) (by rw [and_3f]; omega)
        simpa using h
      have s3 : (l >>> 18) * 262144 + ((l >>> 12) &&& 0x3F) * 4096
          = ((l >>> 18) * 64 + ((l >>> 12) &&& 0x3F)) <<< 12 := by
        rw [Nat.shiftLeft_eq]
        ring_nf
      have s4 : ((l >>> 6) &&& 0x3F) <<< 6 = ((l >>> 6) &&& 0x3F) * 64 := by
        rw [Nat.shiftLeft_eq]
      have s5 : ((l >>> 18) * 64 + ((l >>> 12) &&& 0x3F)) <<< 12 |||
            ((l >>> 6) &&& 0x3F) * 64
          = ((l >>> 18) * 64 + ((l >>> 12) &&& 0x3F)) * 4096
            + ((l >>> 6) &&& 0x3F) * 64 := by
        have h := lor_group (k := 12) ((l >>> 18) * 64 + ((l >>> 12) &&& 0x3F))
          (((l >>> 6) &&& 0x3F) * 64) (by rw [and_3f]; omega)
        simpa using h
      have s6 : ((l >>> 18) * 64 + ((l >>> 12) &&& 0x3F)) * 4096
            + ((l >>> 6) &&& 0x3F) * 64
          = (((l >>> 18) * 64 + ((l >>> 12) &&& 0x3F)) * 64
              + ((l >>> 6) &&& 0x3F)) <<< 6 := by
        rw [Nat.shiftLeft_eq]
        ring_nf
      rw [s1, s2, s3, s4, s5, s6,
        lor_group _ _ (by rw [and_3f]; omega : l &&& 0x3F < 2 ^ 6)]
      rw [shr_div, shr_div, shr_div, and_3f, and_3f, and_3f]
      norm_num
      omega

/-- Bytes below 128 are never continuation bytes. -/
theorem ascii_not_cont : ∀ b, b < 128 → ¬b &&& 0xC0 = 0x80 := by decide

set_option maxRecDepth 4000 in
/-- A byte passing the continuation test is an invalid head byte. -/
theorem cont_invalid (b : Nat) (h : b &&& 0xC0 = 0x80) :
    ¬b < 0x80 ∧ (b < 0xC0 ∨ b > 0xF7) := by
  by_cases hb : b < 0x100
  · have hball : ∀ c, c < 0x100 → c &&& 0xC0 = 0x80 →
        ¬c < 0x80 ∧ (c < 0xC0 ∨ c > 0xF7) := by decide
    exact hball b hb h
  · exact ⟨by omega, Or.inr (by omega)⟩

/-- The encoder never returns an empty list. -/
theorem encodeRune_ne_nil (l : Nat) : encodeRune l ≠ [] := by
  unfold encodeRune
  split_ifs <;> simp

/-- For a non-ASCII code point the encoder's first byte is itself
non-ASCII and not a continuation byte. -/
theorem encodeRune_head (l : Nat) (hge : 128 ≤ l) (hlt : l < 0x110000) :
    ∃ eb ebs, encodeRune l = eb :: ebs ∧ ¬eb < 128 ∧
      ¬eb &&& 0xC0 = 0x80 := by
  unfold encodeRune
  rw [if_neg (by omega)]
  by_cases hb2 : l < 2048
  · rw [if_pos hb2]
    have hy : l >>> 6 < 0x20 := by rw [shr_div]; omega
    have hp := head2_props _ hy
    exact ⟨_, _, rfl, by omega, hp.2.2.2.2⟩
  · rw [if_neg hb2]
    by_cases hb3 : l < 65536
    · rw [if_pos hb3]
      have hy : l >>> 12 < 0x10 := by rw [shr_div]; omega
      have hp := head3_props _ hy
      exact ⟨_, _, rfl, by omega, hp.2.2.2.2.2⟩
    · rw [if_neg hb3]
      have hy : l >>> 18 < 0x8 := by rw [shr_div]; omega
      have hp := head4_props _ hy
      exact ⟨_, _, rfl, by omega, hp.2.2.2.2.2⟩

/-- The fuel of `normalizeUnicodeAux` is irrelevant once it covers the
input length. -/
theorem nuAux_fuel (u : Uni) : ∀ (n : Nat) (text : List Nat),
    text.length ≤ n → ∀ (f₁ f₂ : Nat) (sp : Bool), text.length ≤ f₁ →
    text.length ≤ f₂ →
    normalizeUnicodeAux u f₁ text sp = normalizeUnicodeAux u f₂ text sp := by
  intro n
  induction n with
  | zero =>
    intro text hlen f₁ f₂ sp _ _
    have htext : text = [] := by
      cases text with
      | nil => rfl
      | cons a t => simp at hlen
    subst htext
    cases f₁ <;> cases f₂ <;> rfl
  | succ n ih =>
    intro text hlen f₁ f₂ sp h1 h2
    cases text with
    | nil => cases f₁ <;> cases f₂ <;> rfl
    | cons b rest =>
      simp only [List.length_cons] at hlen h1 h2
      obtain ⟨g₁, rfl⟩ : ∃ g, f₁ = g + 1 := ⟨f₁ - 1, by omega⟩
      obtain ⟨g₂, rfl⟩ : ∃ g, f₂ = g + 1 := ⟨f₂ - 1, by omega⟩
      have htail : ((b :: rest).drop (decodeRune (b :: rest)).2).length
          ≤ rest.length := by
        have := decodeRune_size_pos b rest
        simp only [List.length_drop, List.length_cons]
        omega
      simp only [normalizeUnicodeAux]
      split_ifs
      all_goals first
        | exact ih rest (by omega) g₁ g₂ true (by omega) (by omega)
        | exact ih rest (by omega) g₁ g₂ false (by omega) (by omega)
        | exact congrArg _
            (ih rest (by omega) g₁ g₂ true (by omega) (by omega))
        | exact congrArg _
            (ih rest (by omega) g₁ g₂ false (by omega) (by omega))
        | exact ih _ (le_trans htail (by omega)) g₁ g₂ true
            (le_trans htail (by omega)) (le_trans htail (by omega))
        | exact ih _ (le_trans htail (by omega)) g₁ g₂ false
            (le_trans htail (by omega)) (le_trans htail (by omega))
        | exact congrArg _ (ih _ (le_trans htail (by omega)) g₁ g₂ true
            (le_trans htail (by omega)) (le_trans htail (by omega)))
        | exact congrArg _ (ih _ (le_trans htail (by omega)) g₁ g₂ false
            (le_trans htail (by omega)) (le_trans htail (by omega)))

/-- One step of `nuN` on a non-empty input. -/
theorem nuN_cons (u : Uni) (b : Nat) (rest : List Nat) (sp : Bool) :
    nuN u (b :: rest) sp =
      if b < 128 then
        if (aeTable b).replace then
          if (aeTable b).char = 32 then
            if sp then nuN u rest true else 32 :: nuN u rest true
          else (aeTable b).char :: nuN u rest false
        else b :: nuN u rest false
      else
        if u.isPunct (decodeRune (b :: rest)).1 ||
            u.isSpace (decodeRune (b :: rest)).1 then
          if sp then nuN u ((b :: rest).drop (decodeRune (b :: rest)).2) true
          else 32 :: nuN u ((b :: rest).drop (decodeRune (b :: rest)).2) true
        else if u.isUpper (decodeRune (b :: rest)).1 then
          encodeRune (u.toLower (decodeRune (b :: rest)).1)
            ++ nuN u ((b :: rest).drop (decodeRune (b :: rest)).2) false
        else
          ((b :: rest).take (decodeRune (b :: rest)).2)
            ++ nuN u ((b :: rest).drop (decodeRune (b :: rest)).2) false := by
  have htail : ((b :: rest).drop (decodeRune (b :: rest)).2).length
      ≤ rest.length := by
    have := decodeRune_size_pos b rest
    simp only [List.length_drop, List.length_cons]
    omega
  show normalizeUnicodeAux u (rest.length + 1) (b :: rest) sp = _
  simp only [normalizeUnicodeAux]
  split_ifs
  all_goals first
    | rfl
    | (exact nuAux_fuel u rest.length _ le_rfl _ _ _ le_rfl le_rfl)
    | (exact congrArg _ (nuAux_fuel u rest.length _ le_rfl _ _ _ le_rfl
        le_rfl))
    | (exact nuAux_fuel u rest.length _ htail _ _ _ htail le_rfl)
    | (exact congrArg _ (nuAux_fuel u rest.length _ htail _ _ _ htail
        le_rfl))

/-- Exhaustive case analysis of a non-ASCII decode: either it fails with
`(0xFFFD, 1)`, or the input starts with a complete 2-, 3- or 4-byte
sequence whose decode is independent of what follows it. -/
theorem decode_cases (b : Nat) (rest : List Nat) (h : ¬b < 0x80) :
    decodeRune (b :: rest) = (0xFFFD, 1) ∨
    (∃ b1 r, rest = b1 :: r ∧ ¬(b < 0xC0 ∨ b > 0xF7) ∧ b < 0xE0 ∧
      b1 &&& 0xC0 = 0x80 ∧
      ∀ z, decodeRune (b :: b1 :: z) =
        (((b &&& 0x1F) <<< 6) ||| (b1 &&& 0x3F), 2)) ∨
    (∃ b1 b2 r, rest = b1 :: b2 :: r ∧ ¬(b < 0xC0 ∨ b > 0xF7) ∧
      ¬b < 0xE0 ∧ b < 0xF0 ∧ b1 &&& 0xC0 = 0x80 ∧ b2 &&& 0xC0 = 0x80 ∧
      ∀ z, decodeRune (b :: b1 :: b2 :: z) =
        (((b &&& 0x0F) <<< 12) ||| ((b1 &&& 0x3F) <<< 6) ||| (b2 &&& 0x3F),
          3)) ∨
    (∃ b1 b2 b3 r, rest = b1 :: b2 :: b3 :: r ∧ ¬(b < 0xC0 ∨ b > 0xF7) ∧
      ¬b < 0xE0 ∧ ¬b < 0xF0 ∧ b1 &&& 0xC0 = 0x80 ∧ b2 &&& 0xC0 = 0x80 ∧
      b3 &&& 0xC0 = 0x80 ∧
      ∀ z, decodeRune (b :: b1 :: b2 :: b3 :: z) =
        (((b &&& 0x07) <<< 18) ||| ((b1 &&& 0x3F) <<< 12) |||
          ((b2 &&& 0x3F) <<< 6) ||| (b3 &&& 0x3F), 4)) := by
  by_cases h2 : b < 0xC0 ∨ b > 0xF7
  · exact Or.inl (decodeRune_badHead b rest h h2)
  · by_cases h3 : b < 0xE0
    · cases rest with
      | nil => exact Or.inl (decodeRune_two_nil b h h2 h3)
      | cons b1 r =>
        by_cases hc : b1 &&& 0xC0 = 0x80
        · exact Or.inr (Or.inl ⟨b1, r, rfl, h2, h3, hc,
            fun z => decodeRune_two_ok b b1 z h h2 h3 hc⟩)
        · exact Or.inl (decodeRune_two_bad b b1 r h h2 h3 hc)
    · by_cases h4 : b < 0xF0
      · cases rest with
        | nil => exact Or.inl (decodeRune_three_short b [] h h2 h3 h4
            (by simp))
        | cons b1 r1 =>
          cases r1 with
          | nil => exact Or.inl (decodeRune_three_short b [b1] h h2 h3 h4
              (by simp))
          | cons b2 r2 =>
            by_cases hc1 : b1 &&& 0xC0 = 0x80
            · by_cases hc2 : b2 &&& 0xC0 = 0x80
              · exact Or.inr (Or.inr (Or.inl ⟨b1, b2, r2, rfl, h2, h3, h4,
                  hc1, hc2,
                  fun z => decodeRune_three_ok b b1 b2 z h h2 h3 h4 hc1 hc2⟩))
              · exact Or.inl (decodeRune_three_bad b b1 b2 r2 h h2 h3 h4
                  (Or.inr hc2))
            · exact Or.inl (decodeRune_three_bad b b1 b2 r2 h h2 h3 h4
                (Or.inl hc1))
      · cases rest with
        | nil => exact Or.inl (decodeRune_four_short b [] h h2 h3 h4
            (by simp))
        | cons b1 r1 =>
          cases r1 with
          | nil => exact Or.inl (decodeRune_four_short b [b1] h h2 h3 h4
              (by simp))
          | cons b2 r2 =>
            cases r2 with
            | nil => exact Or.inl (decodeRune_four_short b [b1, b2] h h2 h3
                h4 (by simp))
            | cons b3 r3 =>
              by_cases hc1 : b1 &&& 0xC0 = 0x80
              · by_cases hc2 : b2 &&& 0xC0 = 0x80
                · by_cases hc3 : b3 &&& 0xC0 = 0x80
                  · exact Or.inr (Or.inr (Or.inr ⟨b1, b2, b3, r3, rfl, h2,
                      h3, h4, hc1, hc2, hc3,
                      fun z => decodeRune_four_ok b b1 b2 b3 z h h2 h3 h4
                        hc1 hc2 hc3⟩))
                  · exact Or.inl (decodeRune_four_bad b b1 b2 b3 r3 h h2 h3
                      h4 (Or.inr (Or.inr hc3)))
                · exact Or.inl (decodeRune_four_bad b b1 b2 b3 r3 h h2 h3 h4
                    (Or.inr (Or.inl hc2)))
              · exact Or.inl (decodeRune_four_bad b b1 b2 b3 r3 h h2 h3 h4
                  (Or.inl hc1))

/-- A decode that failed against the original tail also fails against
any `HeadRel`-related tail. -/
theorem headRel_decode_fail (b : Nat) (rest y : List Nat) (hb : ¬b < 0x80)
    (hr : HeadRel rest y)
    (hfail : decodeRune (b :: rest) = (0xFFFD, 1)) :
    decodeRune (b :: y) = (0xFFFD, 1) := by
  by_cases h2 : b < 0xC0 ∨ b > 0xF7
  · exact decodeRune_badHead b y hb h2
  · by_cases h3 : b < 0xE0
    · cases hr with
      | nil => exact decodeRune_two_nil b hb h2 h3
      | contHead c t y2 hc h =>
        rw [decodeRune_two_ok b c t hb h2 h3 hc] at hfail
        simp at hfail
      | freeHead c t yy hc hy hhead =>
        cases y with
        | nil => exact absurd rfl hy
        | cons y0 ys =>
          exact decodeRune_two_bad b y0 ys hb h2 h3 (by simpa using hhead)
    · by_cases h4 : b < 0xF0
      · cases hr with
        | nil => exact decodeRune_three_short b [] hb h2 h3 h4 (by simp)
        | contHead c t y2 hc h =>
          cases h with
          | nil => exact decodeRune_three_short b [c] hb h2 h3 h4 (by simp)
          | contHead c2 t2 y3 hc2 h3' =>
            rw [decodeRune_three_ok b c c2 t2 hb h2 h3 h4 hc hc2] at hfail
            simp at hfail
          | freeHead c2 t2 yy2 hc2 hy2 hhead2 =>
            cases y2 with
            | nil => exact absurd rfl hy2
            | cons y0 ys =>
              exact decodeRune_three_bad b c y0 ys hb h2 h3 h4
                (Or.inr (by simpa using hhead2))
        | freeHead c t yy hc hy hhead =>
          cases y with
          | nil => exact absurd rfl hy
          | cons y0 ys =>
            cases ys with
            | nil =>
              exact decodeRune_three_short b [y0] hb h2 h3 h4 (by simp)
            | cons y1 ys2 =>
              exact decodeRune_three_bad b y0 y1 ys2 hb h2 h3 h4
                (Or.inl (by simpa using hhead))
      · cases hr with
        | nil => exact decodeRune_four_short b [] hb h2 h3 h4 (by simp)
        | contHead c t y2 hc h =>
          cases h with
          | nil => exact decodeRune_four_short b [c] hb h2 h3 h4 (by simp)
          | contHead c2 t2 y3 hc2 h3' =>
            cases h3' with
            | nil =>
              exact decodeRune_four_short b [c, c2] hb h2 h3 h4 (by simp)
            | contHead c3 t3 y4 hc3 h4' =>
              rw [decodeRune_four_ok b c c2 c3 t3 hb h2 h3 h4 hc hc2 hc3]
                at hfail
              simp at hfail
            | freeHead c3 t3 yy3 hc3 hy3 hhead3 =>
              cases y3 with
              | nil => exact absurd rfl hy3
              | cons y0 ys =>
                exact decodeRune_four_bad b c c2 y0 ys hb h2 h3 h4
                  (Or.inr (Or.inr (by simpa using hhead3)))
          | freeHead c2 t2 yy2 hc2 hy2 hhead2 =>
            cases y2 with
            | nil => exact absurd rfl hy2
            | cons y0 ys =>
              cases ys with
              | nil =>
                exact decodeRune_four_short b [c, y0] hb h2 h3 h4 (by simp)
              | cons y1 ys2 =>
                exact decodeRune_four_bad b c y0 y1 ys2 hb h2 h3 h4
                  (Or.inr (Or.inl (by simpa using hhead2)))
        | freeHead c t yy hc hy hhead =>
          cases y with
          | nil => exact absurd rfl hy
          | cons y0 ys =>
            cases ys with
            | nil =>
              exact decodeRune_four_short b [y0] hb h2 h3 h4 (by simp)
            | cons y1 ys2 =>
              cases ys2 with
              | nil =>
                exact decodeRune_four_short b [y0, y1] hb h2 h3 h4 (by simp)
              | cons y2' ys3 =>
                exact decodeRune_four_bad b y0 y1 y2' ys3 hb h2 h3 h4
                  (Or.inl (by simpa using hhead))

set_option maxRecDepth 4000 in
/-- A replacement other than the space is an inert lowercase ASCII byte:
kept unchanged by the table on a second pass. -/
theorem aeTable_emit : ∀ b, b < 128 → (aeTable b).replace = true →
    (aeTable b).char ≠ 32 →
    (aeTable b).char < 128 ∧
      (aeTable ((aeTable b).char)).replace = false := by decide

/-- The space byte itself is kept by the ASCII table. -/
theorem aeTable_space : (aeTable 32).replace = false := by decide

/-- A multiple of `2 ^ k` is a lower bound of its or with a `k`-bit
value. -/
theorem lor_ge (a b k : Nat) (hb : b < 2 ^ k) :
    2 ^ k * a ≤ (2 ^ k * a) ||| b := by
  rw [← Nat.mul_add_lt_is_or hb a]
  omega

/-- For a non-ASCII code point every encoded byte is non-ASCII. -/
theorem encodeRune_bytes_ge (l : Nat) (hge : 128 ≤ l)
    (hlt : l < 0x110000) : ∀ c ∈ encodeRune l, ¬c < 128 := by
  intro c hc
  unfold encodeRune at hc
  rw [if_neg (by omega)] at hc
  by_cases hb2 : l < 2048
  · rw [if_pos hb2] at hc
    simp only [List.mem_cons, List.not_mem_nil, or_false] at hc
    rcases hc with rfl | rfl
    · have h1 : l >>> 6 < 2 ^ 6 := by rw [shr_div]; omega
      have h := lor_ge 3 (l >>> 6) 6 h1
      norm_num at h ⊢
      omega
    · have h1 : l &&& 0x3F < 2 ^ 7 := by rw [and_3f]; omega
      have h := lor_ge 1 (l &&& 0x3F) 7 h1
      norm_num at h ⊢
      omega
  · rw [if_neg hb2] at hc
    by_cases hb3 : l < 65536
    · rw [if_pos hb3] at hc
      simp only [List.mem_cons, List.not_mem_nil, or_false] at hc
      rcases hc with rfl | rfl | rfl
      · have h1 : l >>> 12 < 2 ^ 5 := by rw [shr_div]; omega
        have h := lor_ge 7 (l >>> 12) 5 h1
        norm_num at h ⊢
        omega
      · have h1 : (l >>> 6) &&& 0x3F < 2 ^ 7 := by rw [and_3f]; omega
        have h := lor_ge 1 ((l >>> 6) &&& 0x3F) 7 h1
        norm_num at h ⊢
        omega
      · have h1 : l &&& 0x3F < 2 ^ 7 := by rw [and_3f]; omega
        have h := lor_ge 1 (l &&& 0x3F) 7 h1
        norm_num at h ⊢
        omega
    · rw [if_neg hb3] at hc
      simp only [List.mem_cons, List.not_mem_nil, or_false] at hc
      rcases hc with rfl | rfl | rfl | rfl
      · have h1 : l >>> 18 < 2 ^ 4 := by rw [shr_div]; omega
        have h := lor_ge 15 (l >>> 18) 4 h1
        norm_num at h ⊢
        omega
      · have h1 : (l >>> 12) &&& 0x3F < 2 ^ 7 := by rw [and_3f]; omega
        have h := lor_ge 1 ((l >>> 12) &&& 0x3F) 7 h1
        norm_num at h ⊢
        omega
      · have h1 : (l >>> 6) &&& 0x3F < 2 ^ 7 := by rw [and_3f]; omega
        have h := lor_ge 1 ((l >>> 6) &&& 0x3F) 7 h1
        norm_num at h ⊢
        omega
      · have h1 : l &&& 0x3F < 2 ^ 7 := by rw [and_3f]; omega
        have h := lor_ge 1 (l &&& 0x3F) 7 h1
        norm_num at h ⊢
        omega

/-- On a non-empty input with the space flag clear the Unicode
normalizer emits at least one byte. -/
theorem nuN_ne_nil (u : Uni) (b : Nat) (rest : List Nat) :
    nuN u (b :: rest) false ≠ [] := by
  rw [nuN_cons]
  obtain ⟨k, hk⟩ : ∃ k, (decodeRune (b :: rest)).2 = k + 1 :=
    ⟨(decodeRune (b :: rest)).2 - 1, by
      have := decodeRune_size_pos b rest
      omega⟩
  split_ifs <;> simp_all [hk, List.take_succ_cons, encodeRune_ne_nil]

/-- With the space flag clear the Unicode normalizer's output is
`HeadRel`-related to its input. -/
theorem nuN_headRel (u : Uni) (hu : UniSane u) : ∀ (n : Nat)
    (text : List Nat), text.length ≤ n →
    HeadRel text (nuN u text false) := by
  intro n
  induction n with
  | zero =>
    intro text hlen
    have htext : text = [] := by cases text <;> simp_all
    subst htext
    exact HeadRel.nil
  | succ n ih =>
    intro text hlen
    cases text with
    | nil => exact HeadRel.nil
    | cons b rest =>
      simp only [List.length_cons] at hlen
      rw [nuN_cons]
      by_cases hb : b < 128
      · rw [if_pos hb]
        by_cases hrep : (aeTable b).replace = true
        · rw [if_pos hrep]
          by_cases hch : (aeTable b).char = 32
          · rw [if_pos hch, if_neg (by simp)]
            exact HeadRel.freeHead b rest _ (ascii_not_cont b hb)
              (by simp) (by simp)
          · rw [if_neg hch]
            have hem := aeTable_emit b hb hrep hch
            exact HeadRel.freeHead b rest _ (ascii_not_cont b hb)
              (by simp) (by simpa using ascii_not_cont _ hem.1)
        · rw [if_neg hrep]
          exact HeadRel.freeHead b rest _ (ascii_not_cont b hb)
            (by simp) (by simpa using ascii_not_cont b hb)
      · rw [if_neg hb]
        by_cases hcont : b &&& 0xC0 = 0x80
        · have hinv := cont_invalid b hcont
          have hd : decodeRune (b :: rest) = (0xFFFD, 1) :=
            decodeRune_badHead b rest hinv.1 hinv.2
          rw [hd]
          simp only [hu.fffdPunct, hu.fffdSpace, hu.fffdUpper,
            Bool.or_self, Bool.false_eq_true, if_false, List.take_succ_cons,
            List.take_zero, List.drop_succ_cons, List.drop_zero,
            List.cons_append, List.nil_append]
          exact HeadRel.contHead b rest _ hcont (ih rest (by omega))
        · by_cases hps : (u.isPunct (decodeRune (b :: rest)).1 ||
              u.isSpace (decodeRune (b :: rest)).1) = true
          · rw [if_pos hps, if_neg (by simp)]
            exact HeadRel.freeHead b rest _ hcont (by simp) (by simp)
          · rw [if_neg hps]
            by_cases hup : u.isUpper (decodeRune (b :: rest)).1 = true
            · rw [if_pos hup]
              by_cases hlo : u.toLower (decodeRune (b :: rest)).1 < 128
              · have he : encodeRune (u.toLower (decodeRune (b :: rest)).1)
                    = [u.toLower (decodeRune (b :: rest)).1] := by
                  unfold encodeRune
                  rw [if_pos hlo]
                rw [he]
                exact HeadRel.freeHead b rest _ hcont (by simp)
                  (by simpa using ascii_not_cont _ hlo)
              · have hge : 128 ≤ u.toLower (decodeRune (b :: rest)).1 := by
                  omega
                have hrange := hu.upperLowerRange _ hup hge
                obtain ⟨eb, ebs, he, hbe, hbc⟩ :=
                  encodeRune_head _ hge hrange
                rw [he]
                exact HeadRel.freeHead b rest _ hcont (by simp)
                  (by simpa using hbc)
            · rw [if_neg hup]
              obtain ⟨k, hk⟩ : ∃ k, (decodeRune (b :: rest)).2 = k + 1 :=
                ⟨(decodeRune (b :: rest)).2 - 1, by
                  have := decodeRune_size_pos b rest
                  omega⟩
              rw [hk]
              simp only [List.take_succ_cons, List.cons_append]
              exact HeadRel.freeHead b rest _ hcont (by simp)
                (by simpa using hcont)

/-- Re-scanning an emitted non-ASCII lowercase encoding reproduces it
verbatim and continues after it. -/
theorem nuN_enc_step (u : Uni) (l : Nat) (hge : 128 ≤ l)
    (hlt : l < 0x110000) (hp : u.isPunct l = false)
    (hs : u.isSpace l = false) (hlow : u.toLower l = l) (z : List Nat) :
    nuN u (encodeRune l ++ z) false = encodeRune l ++ nuN u z false := by
  have hd := decode_encode l hge hlt z
  obtain ⟨eb, ebs, he, hbe, hbc⟩ := encodeRune_head l hge hlt
  rw [he] at hd ⊢
  rw [List.cons_append] at hd ⊢
  have hd1 : (decodeRune (eb :: (ebs ++ z))).1 = l := by rw [hd]
  have hd2 : (decodeRune (eb :: (ebs ++ z))).2 = (eb :: ebs).length := by
    rw [hd]
  have hconcat : eb :: (ebs ++ z) = (eb :: ebs) ++ z := by simp
  have hdrop : (eb :: (ebs ++ z)).drop (eb :: ebs).length = z := by
    rw [hconcat]
    exact List.drop_left _ _
  have htake : (eb :: (ebs ++ z)).take (eb :: ebs).length = eb :: ebs := by
    rw [hconcat]
    exact List.take_left _ _
  rw [nuN_cons, if_neg hbe, hd1, hd2]
  simp only [hp, hs, Bool.or_self, Bool.false_eq_true, if_false]
  by_cases hup : u.isUpper l = true
  · rw [if_pos hup, hlow, he, hdrop]
  · rw [if_neg hup, htake, hdrop]

/-- Every ASCII byte the Unicode normalizer emits is inert: the ASCII
table keeps it unchanged. -/
theorem nuN_bytes (u : Uni) (hu : UniSane u) : ∀ (n : Nat)
    (text : List Nat), text.length ≤ n → ∀ (sp : Bool),
    ∀ c ∈ nuN u text sp, c < 128 → (aeTable c).replace = false := by
  intro n
  induction n with
  | zero =>
    intro text hlen sp c hc
    have htext : text = [] := by cases text <;> simp_all
    subst htext
    exact absurd hc (List.not_mem_nil c)
  | succ n ih =>
    intro text hlen sp c hc
    cases text with
    | nil => exact absurd hc (List.not_mem_nil c)
    | cons b rest =>
      simp only [List.length_cons] at hlen
      rw [nuN_cons] at hc
      by_cases hb : b < 128
      · rw [if_pos hb] at hc
        by_cases hrep : (aeTable b).replace = true
        · rw [if_pos hrep] at hc
          by_cases hch : (aeTable b).char = 32
          · rw [if_pos hch] at hc
            by_cases hsp : sp = true
            · rw [if_pos hsp] at hc
              exact ih rest (by omega) true c hc
            · rw [if_neg hsp] at hc
              rcases List.mem_cons.mp hc with rfl | hmem
              · intro _
                exact aeTable_space
              · exact ih rest (by omega) true c hmem
          · rw [if_neg hch] at hc
            rcases List.mem_cons.mp hc with rfl | hmem
            · intro _
              exact (aeTable_emit b hb hrep hch).2
            · exact ih rest (by omega) false c hmem
        · rw [if_neg hrep] at hc
          rcases List.mem_cons.mp hc with rfl | hmem
          · intro _
            simpa using hrep
          · exact ih rest (by omega) false c hmem
      · rw [if_neg hb] at hc
        have htail : ((b :: rest).drop (decodeRune (b :: rest)).2).length
            ≤ n := by
          have h1 := decodeRune_size_pos b rest
          simp only [List.length_drop, List.length_cons]
          omega
        by_cases hps : (u.isPunct (decodeRune (b :: rest)).1 ||
            u.isSpace (decodeRune (b :: rest)).1) = true
        · rw [if_pos hps] at hc
          by_cases hsp : sp = true
          · rw [if_pos hsp] at hc
            exact ih _ htail true c hc
          · rw [if_neg hsp] at hc
            rcases List.mem_cons.mp hc with rfl | hmem
            · intro _
              exact aeTable_space
            · exact ih _ htail true c hmem
        · rw [if_neg hps] at hc
          by_cases hup : u.isUpper (decodeRune (b :: rest)).1 = true
          · rw [if_pos hup] at hc
            rcases List.mem_append.mp hc with hmem | hmem
            · by_cases hlo : u.toLower (decodeRune (b :: rest)).1 < 128
              · have he : encodeRune (u.toLower (decodeRune (b :: rest)).1)
                    = [u.toLower (decodeRune (b :: rest)).1] := by
                  unfold encodeRune
                  rw [if_pos hlo]
                rw [he] at hmem
                simp only [List.mem_singleton] at hmem
                subst hmem
                intro _
                exact (hu.lowerClassAE _ hup).1 hlo
              · have hge : 128 ≤ u.toLower (decodeRune (b :: rest)).1 := by
                  omega
                have hrange := hu.upperLowerRange _ hup hge
                intro hclt
                exact absurd hclt (encodeRune_bytes_ge _ hge hrange c hmem)
            · exact ih _ htail false c hmem
          · rw [if_neg hup] at hc
            rcases List.mem_append.mp hc with hmem | hmem
            · intro hclt
              rcases decode_cases b rest hb with hfl |
                ⟨b1, r, hr, _, _, hcnt, hdec⟩ |
                ⟨b1, b2, r, hr, _, _, _, hc1, hc2, hdec⟩ |
                ⟨b1, b2, b3, r, hr, _, _, _, hc1, hc2, hc3, hdec⟩
              · rw [hfl] at hmem
                simp at hmem
                subst hmem
                exact absurd hclt hb
              · subst hr
                rw [hdec r] at hmem
                simp at hmem
                rcases hmem with rfl | rfl
                · exact absurd hclt hb
                · exact absurd hclt (cont_invalid _ hcnt).1
              · subst hr
                rw [hdec r] at hmem
                simp at hmem
                rcases hmem with rfl | rfl | rfl
                · exact absurd hclt hb
                · exact absurd hclt (cont_invalid _ hc1).1
                · exact absurd hclt (cont_invalid _ hc2).1
              · subst hr
                rw [hdec r] at hmem
                simp at hmem
                rcases hmem with rfl | rfl | rfl | rfl
                · exact absurd hclt hb
                · exact absurd hclt (cont_invalid _ hc1).1
                · exact absurd hclt (cont_invalid _ hc2).1
                · exact absurd hclt (cont_invalid _ hc3).1
            · exact ih _ htail false c hmem

/-- Re-normalizing the Unicode normalizer's output reproduces it. -/
theorem nuN_idem_aux (u : Uni) (hu : UniSane u) : ∀ (n : Nat)
    (text : List Nat), text.length ≤ n → ∀ (sp : Bool),
    nuN u (nuN u text sp) false = nuN u text sp := by
  intro n
  induction n with
  | zero =>
    intro text hlen sp
    have htext : text = [] := by cases text <;> simp_all
    subst htext
    rfl
  | succ n ih =>
    intro text hlen sp
    cases text with
    | nil => rfl
    | cons b rest =>
      simp only [List.length_cons] at hlen
      rw [nuN_cons]
      by_cases hb : b < 128
      · rw [if_pos hb]
        by_cases hrep : (aeTable b).replace = true
        · rw [if_pos hrep]
          by_cases hch : (aeTable b).char = 32
          · rw [if_pos hch]
            by_cases hsp : sp = true
            · rw [if_pos hsp]
              exact ih rest (by omega) true
            · rw [if_neg hsp]
              rw [nuN_cons, if_pos (by norm_num : (32 : Nat) < 128),
                if_neg (by simp [aeTable_space]),
                ih rest (by omega) true]
          · rw [if_neg hch]
            have hem := aeTable_emit b hb hrep hch
            rw [nuN_cons, if_pos hem.1, if_neg (by simp [hem.2]),
              ih rest (by omega) false]
        · rw [if_neg hrep]
          rw [nuN_cons, if_pos hb, if_neg hrep, ih rest (by omega) false]
      · rw [if_neg hb]
        have htail : ((b :: rest).drop (decodeRune (b :: rest)).2).length
            ≤ n := by
          have h1 := decodeRune_size_pos b rest
          simp only [List.length_drop, List.length_cons]
          omega
        by_cases hps : (u.isPunct (decodeRune (b :: rest)).1 ||
            u.isSpace (decodeRune (b :: rest)).1) = true
        · rw [if_pos hps]
          by_cases hsp : sp = true
          · rw [if_pos hsp]
            exact ih _ htail true
          · rw [if_neg hsp]
            rw [nuN_cons, if_pos (by norm_num : (32 : Nat) < 128),
              if_neg (by simp [aeTable_space]), ih _ htail true]
        · rw [if_neg hps]
          by_cases hup : u.isUpper (decodeRune (b :: rest)).1 = true
          · rw [if_pos hup]
            by_cases hlo : u.toLower (decodeRune (b :: rest)).1 < 128
            · have he : encodeRune (u.toLower (decodeRune (b :: rest)).1)
                  = [u.toLower (decodeRune (b :: rest)).1] := by
                unfold encodeRune
                rw [if_pos hlo]
              have hkeep := (hu.lowerClassAE _ hup).1 hlo
              rw [he, List.singleton_append, nuN_cons, if_pos hlo,
                if_neg (by simp [hkeep]), ih _ htail false]
            · have hge : 128 ≤ u.toLower (decodeRune (b :: rest)).1 := by
                omega
              have hrange := hu.upperLowerRange _ hup hge
              have hcls := (hu.lowerClassAE _ hup).2 hge
              have hlow := hu.lowerIdem (decodeRune (b :: rest)).1
              rw [nuN_enc_step u _ hge hrange hcls.1 hcls.2 hlow _,
                ih _ htail false]
          · rw [if_neg hup]
            rcases decode_cases b rest hb with hfl |
              ⟨b1, r, hr, hh2, hh3, hcnt, hdec⟩ |
              ⟨b1, b2, r, hr, hh2, hh3, hh4, hcc1, hcc2, hdec⟩ |
              ⟨b1, b2, b3, r, hr, hh2, hh3, hh4, hcc1, hcc2, hcc3, hdec⟩
            · have h1 : (b :: rest).take (decodeRune (b :: rest)).2
                  = [b] := by
                rw [hfl]
                rfl
              have h2 : (b :: rest).drop (decodeRune (b :: rest)).2
                  = rest := by
                rw [hfl]
                rfl
              rw [h1, h2, List.singleton_append]
              have hrel := nuN_headRel u hu n rest (by omega)
              have hd2 := headRel_decode_fail b rest (nuN u rest false) hb
                hrel hfl
              have hd21 : (decodeRune (b :: nuN u rest false)).1
                  = 0xFFFD := by
                rw [hd2]
              have hd22 : (decodeRune (b :: nuN u rest false)).2 = 1 := by
                rw [hd2]
              rw [nuN_cons, if_neg hb, hd21, hd22]
              simp only [hu.fffdPunct, hu.fffdSpace, hu.fffdUpper,
                Bool.or_self, Bool.false_eq_true, if_false]
              have h3 : (b :: nuN u rest false).take 1 = [b] := rfl
              have h4 : (b :: nuN u rest false).drop 1
                  = nuN u rest false := rfl
              rw [h3, h4, List.singleton_append, ih rest (by omega) false]
            · subst hr
              have hrlen : r.length ≤ n := by
                simp only [List.length_cons] at hlen
                omega
              have ht : (b :: b1 :: r).take (decodeRune (b :: b1 :: r)).2
                  = [b, b1] := by
                rw [hdec]
                rfl
              have hdp : (b :: b1 :: r).drop (decodeRune (b :: b1 :: r)).2
                  = r := by
                rw [hdec]
                rfl
              have hv1 : (decodeRune (b :: b1 :: r)).1
                  = ((b &&& 0x1F) <<< 6) ||| (b1 &&& 0x3F) := by
                rw [hdec]
              rw [ht, hdp]
              simp only [List.cons_append, List.nil_append]
              rw [hv1] at hps hup
              have hw1 : (decodeRune (b :: b1 :: nuN u r false)).1
                  = ((b &&& 0x1F) <<< 6) ||| (b1 &&& 0x3F) := by
                rw [hdec]
              have hw2 : (decodeRune (b :: b1 :: nuN u r false)).2 = 2 := by
                rw [hdec]
              rw [nuN_cons, if_neg hb, hw1, hw2, if_neg hps, if_neg hup]
              have h5 : (b :: b1 :: nuN u r false).take 2 = [b, b1] := rfl
              have h6 : (b :: b1 :: nuN u r false).drop 2
                  = nuN u r false := rfl
              rw [h5, h6, ih r hrlen false]
              simp
            · subst hr
              have hrlen : r.length ≤ n := by
                simp only [List.length_cons] at hlen
                omega
              have ht : (b :: b1 :: b2 :: r).take
                  (decodeRune (b :: b1 :: b2 :: r)).2 = [b, b1, b2] := by
                rw [hdec]
                rfl
              have hdp : (b :: b1 :: b2 :: r).drop
                  (decodeRune (b :: b1 :: b2 :: r)).2 = r := by
                rw [hdec]
                rfl
              have hv1 : (decodeRune (b :: b1 :: b2 :: r)).1
                  = ((b &&& 0x0F) <<< 12) ||| ((b1 &&& 0x3F) <<< 6) |||
                    (b2 &&& 0x3F) := by
                rw [hdec]
              rw [ht, hdp]
              simp only [List.cons_append, List.nil_append]
              rw [hv1] at hps hup
              have hw1 : (decodeRune (b :: b1 :: b2 :: nuN u r false)).1
                  = ((b &&& 0x0F) <<< 12) ||| ((b1 &&& 0x3F) <<< 6) |||
                    (b2 &&& 0x3F) := by
                rw [hdec]
              have hw2 : (decodeRune (b :: b1 :: b2 :: nuN u r false)).2
                  = 3 := by
                rw [hdec]
              rw [nuN_cons, if_neg hb, hw1, hw2, if_neg hps, if_neg hup]
              have h5 : (b :: b1 :: b2 :: nuN u r false).take 3
                  = [b, b1, b2] := rfl
              have h6 : (b :: b1 :: b2 :: nuN u r false).drop 3
                  = nuN u r false := rfl
              rw [h5, h6, ih r hrlen false]
              simp
            · subst hr
              have hrlen : r.length ≤ n := by
                simp only [List.length_cons] at hlen
                omega
              have ht : (b :: b1 :: b2 :: b3 :: r).take
                  (decodeRune (b :: b1 :: b2 :: b3 :: r)).2
                  = [b, b1, b2, b3] := by
                rw [hdec]
                rfl
              have hdp : (b :: b1 :: b2 :: b3 :: r).drop
                  (decodeRune (b :: b1 :: b2 :: b3 :: r)).2 = r := by
                rw [hdec]
                rfl
              have hv1 : (decodeRune (b :: b1 :: b2 :: b3 :: r)).1
                  = ((b &&& 0x07) <<< 18) ||| ((b1 &&& 0x3F) <<< 12) |||
                    ((b2 &&& 0x3F) <<< 6) ||| (b3 &&& 0x3F) := by
                rw [hdec]
              rw [ht, hdp]
              simp only [List.cons_append, List.nil_append]
              rw [hv1] at hps hup
              have hw1 : (decodeRune
                    (b :: b1 :: b2 :: b3 :: nuN u r false)).1
                  = ((b &&& 0x07) <<< 18) ||| ((b1 &&& 0x3F) <<< 12) |||
                    ((b2 &&& 0x3F) <<< 6) ||| (b3 &&& 0x3F) := by
                rw [hdec]
              have hw2 : (decodeRune
                    (b :: b1 :: b2 :: b3 :: nuN u r false)).2 = 4 := by
                rw [hdec]
              rw [nuN_cons, if_neg hb, hw1, hw2, if_neg hps, if_neg hup]
              have h5 : (b :: b1 :: b2 :: b3 :: nuN u r false).take 4
                  = [b, b1, b2, b3] := rfl
              have h6 : (b :: b1 :: b2 :: b3 :: nuN u r false).drop 4
                  = nuN u r false := rfl
              rw [h5, h6, ih r hrlen false]
              simp

/-- Inert ASCII lists pass through `normalizeASCIIAux` unchanged. -/
theorem naa_id : ∀ (y : List Nat), (∀ c ∈ y, c < 128 ∧
    (aeTable c).replace = false) → ∀ (sp : Bool),
    normalizeASCIIAux y sp = y := by
  intro y
  induction y with
  | nil =>
    intro _ _
    rfl
  | cons c t ih =>
    intro h sp
    have hc := h c (by simp)
    simp only [normalizeASCIIAux]
    rw [if_pos hc.1, if_neg (by simp [hc.2])]
    rw [ih (fun d hd => h d (by simp [hd])) false]

/-- On all-ASCII input every byte the ASCII path emits is an inert ASCII
byte. -/
theorem naa_bytes : ∀ (text : List Nat), (∀ c ∈ text, c < 128) →
    ∀ (sp : Bool), ∀ c ∈ normalizeASCIIAux text sp,
    c < 128 ∧ (aeTable c).replace = false := by
  intro text
  induction text with
  | nil =>
    intro _ sp c hc
    exact absurd hc (List.not_mem_nil c)
  | cons b t ih =>
    intro h sp c hc
    have hb := h b (by simp)
    have ht : ∀ d ∈ t, d < 128 := fun d hd => h d (by simp [hd])
    simp only [normalizeASCIIAux] at hc
    rw [if_pos hb] at hc
    by_cases hrep : (aeTable b).replace = true
    · rw [if_pos hrep] at hc
      by_cases hch : (aeTable b).char = 32
      · rw [if_pos hch] at hc
        by_cases hsp : sp = true
        · rw [if_pos hsp] at hc
          exact ih ht true c hc
        · rw [if_neg hsp] at hc
          rcases List.mem_cons.mp hc with rfl | hm
          · exact ⟨by norm_num, aeTable_space⟩
          · exact ih ht true c hm
      · rw [if_neg hch] at hc
        rcases List.mem_cons.mp hc with rfl | hm
        · exact aeTable_emit b hb hrep hch
        · exact ih ht false c hm
    · rw [if_neg hrep] at hc
      rcases List.mem_cons.mp hc with rfl | hm
      · exact ⟨hb, by simpa using hrep⟩
      · exact ih ht false c hm

/-- On a non-empty input with the space flag clear the ASCII path emits
at least one byte. -/
theorem naa_ne_nil (b : Nat) (rest : List Nat) :
    normalizeASCIIAux (b :: rest) false ≠ [] := by
  simp only [normalizeASCIIAux]
  split_ifs <;> simp_all

/-- `Normalize` is the identity on a non-empty all-inert-ASCII list. -/
theorem aeNormalize_inert (u : Uni) (y : List Nat) (hne : y ≠ [])
    (haoy : isAsciiOnly y = true)
    (hin : ∀ c ∈ y, c < 128 ∧ (aeTable c).replace = false) :
    aeNormalize u y = y := by
  unfold aeNormalize
  rw [if_neg (by simpa [List.length_eq_zero] using hne), if_pos haoy]
  exact naa_id y hin false

/-- Idempotence of the allocation-efficient normalizer `Normalize`
(`allocation_efficient.go` lines 73‒113). -/
theorem aeNormalize_idem (u : Uni) (hu : UniSane u) (text : List Nat) :
    aeNormalize u (aeNormalize u text) = aeNormalize u text := by
  cases text with
  | nil => rfl
  | cons b rest =>
    by_cases hao : isAsciiOnly (b :: rest) = true
    · have hstep : aeNormalize u (b :: rest)
          = normalizeASCIIAux (b :: rest) false := by
        unfold aeNormalize
        rw [if_neg (by simp), if_pos hao]
        rfl
      have hascii : ∀ c ∈ b :: rest, c < 128 := by
        simpa [isAsciiOnly] using hao
      have hbytes := naa_bytes (b :: rest) hascii false
      have haoy : isAsciiOnly (normalizeASCIIAux (b :: rest) false)
          = true := by
        simp only [isAsciiOnly, List.all_eq_true]
        intro c hc
        simpa using (hbytes c hc).1
      rw [hstep]
      exact aeNormalize_inert u _ (naa_ne_nil b rest) haoy hbytes
    · have hstep : aeNormalize u (b :: rest) = nuN u (b :: rest) false := by
        unfold aeNormalize
        rw [if_neg (by simp), if_neg hao]
        rfl
      rw [hstep]
      have hne := nuN_ne_nil u b rest
      by_cases hao2 : isAsciiOnly (nuN u (b :: rest) false) = true
      · have hlt : ∀ c ∈ nuN u (b :: rest) false, c < 128 := by
          simpa [isAsciiOnly] using hao2
        have hin : ∀ c ∈ nuN u (b :: rest) false,
            c < 128 ∧ (aeTable c).replace = false := fun c hc =>
          ⟨hlt c hc, nuN_bytes u hu (b :: rest).length (b :: rest) le_rfl
            false c hc (hlt c hc)⟩
        exact aeNormalize_inert u _ hne hao2 hin
      · unfold aeNormalize
        rw [if_neg (by simpa [List.length_eq_zero] using hne),
          if_neg hao2]
        exact nuN_idem_aux u hu (b :: rest).length (b :: rest) le_rfl false

/-- Per-rune idempotence of the fast normalizer's character map. -/
theorem fastNormalize_char_idem (u : Uni) (hu : UniSane u) (r : Nat) :
    (fun r =>
      if r < 128 then
        if asciiIsPunct r then 32
        else if asciiIsUpper r then asciiToLower r
        else r
      else
        if u.isPunct r then 32 else u.toLower r)
    ((fun r =>
      if r < 128 then
        if asciiIsPunct r then 32
        else if asciiIsUpper r then asciiToLower r
        else r
      else
        if u.isPunct r then 32 else u.toLower r) r)
    = (fun r =>
      if r < 128 then
        if asciiIsPunct r then 32
        else if asciiIsUpper r then asciiToLower r
        else r
      else
        if u.isPunct r then 32 else u.toLower r) r := by
  simp only []
  by_cases h128 : r < 128
  · rw [if_pos h128]
    by_cases hp : asciiIsPunct r = true
    · rw [if_pos hp]
      simp [asciiIsPunct, asciiIsUpper]
    · rw [if_neg hp]
      by_cases hup : asciiIsUpper r = true
      · rw [if_pos hup]
        have hb : 65 ≤ r ∧ r ≤ 90 := by
          simpa [asciiIsUpper] using hup
        have h1 : asciiToLower r = r + 32 := by
          simp [asciiToLower, hb]
        have h2 : asciiIsPunct (r + 32) = false := by
          simp only [asciiIsPunct, Bool.or_eq_false_iff, decide_eq_false_iff_not]
          omega
        have h3 : asciiIsUpper (r + 32) = false := by
          simp only [asciiIsUpper, Bool.and_eq_false_iff, decide_eq_false_iff_not]
          omega
        rw [h1]
        rw [if_pos (by omega : r + 32 < 128), if_neg (by simp [h2]),
          if_neg (by simp [h3])]
      · rw [if_neg hup, if_pos h128, if_neg hp, if_neg hup]
  · rw [if_neg h128]
    by_cases hp : u.isPunct r = true
    · rw [if_pos hp]
      simp [asciiIsPunct, asciiIsUpper]
    · rw [if_neg hp]
      have hge : 128 ≤ r := by omega
      have hc := hu.lowerClassFast r hge (by simpa using hp)
      by_cases hl : u.toLower r < 128
      · obtain ⟨h1, h2⟩ := hc.1 hl
        rw [if_pos hl, if_neg (by simp [h1]), if_neg (by simp [h2])]
      · have h1 := hc.2 (by omega)
        rw [if_neg hl, if_neg (by simp [h1])]
        exact hu.lowerIdem r

/-- Idempotence of the fast normalizer. -/
theorem fastNormalize_idem (u : Uni) (hu : UniSane u) (x : List Nat) :
    fastNormalize u (fastNormalize u x) = fastNormalize u x := by
  unfold fastNormalize
  rw [List.map_map]
  apply List.map_congr_left
  intro r _
  exact fastNormalize_char_idem u hu r

/-- Joint idempotence invariant for the optimized normalizer: the output
produced from collapse state `true` never starts with a space, so a
second pass reproduces it from any state; the output from state `false`
is reproduced by a second pass from state `false`. -/
theorem optNormalizeAux_idem (u : Uni) (hu : UniSane u) :
    ∀ text : List Nat,
      (∀ sp', optNormalizeAux u (optNormalizeAux u text true) sp'
          = optNormalizeAux u text true) ∧
      (optNormalizeAux u (optNormalizeAux u text false) false
          = optNormalizeAux u text false) := by
  have h32 : optTable 32 = 1 := by decide
  have hupper : ∀ r, r < 128 → optTable r = 2 →
      (r + 32 < 128 ∧ optTable (r + 32) = 0) := by decide
  intro text
  induction text with
  | nil => exact ⟨fun _ => rfl, rfl⟩
  | cons r rest ih =>
    by_cases h128 : r < 128
    · by_cases h1 : optTable r = 1
      · have hstepT : optNormalizeAux u (r :: rest) true
            = optNormalizeAux u rest true := by
          simp [optNormalizeAux, h128, h1]
        have hstepF : optNormalizeAux u (r :: rest) false
            = 32 :: optNormalizeAux u rest true := by
          simp [optNormalizeAux, h128, h1]
        refine ⟨fun sp' => by rw [hstepT]; exact ih.1 sp', ?_⟩
        rw [hstepF]
        have hstep2 : optNormalizeAux u (32 :: optNormalizeAux u rest true)
              false
            = 32 :: optNormalizeAux u (optNormalizeAux u rest true) true := by
          simp [optNormalizeAux, h32]
        rw [hstep2, ih.1 true]
      · by_cases h2 : optTable r = 2
        · have hb := hupper r h128 h2
          have hstep : ∀ sp, optNormalizeAux u (r :: rest) sp
              = (r + 32) :: optNormalizeAux u rest false := by
            intro sp
            simp [optNormalizeAux, h128, h1, h2]
          have hstep2 : ∀ sp, optNormalizeAux u
                ((r + 32) :: optNormalizeAux u rest false) sp
              = (r + 32) ::
                  optNormalizeAux u (optNormalizeAux u rest false) false := by
            intro sp
            simp [optNormalizeAux, hb.1, hb.2]
          exact ⟨fun sp' => by rw [hstep true, hstep2, ih.2],
            by rw [hstep false, hstep2, ih.2]⟩
        · have hstep : ∀ sp, optNormalizeAux u (r :: rest) sp
              = r :: optNormalizeAux u rest false := by
            intro sp
            simp [optNormalizeAux, h128, h1, h2]
          have hstep2 : ∀ sp, optNormalizeAux u
                (r :: optNormalizeAux u rest false) sp
              = r :: optNormalizeAux u (optNormalizeAux u rest false) false := by
            intro sp
            simp [optNormalizeAux, h128, h1, h2]
          exact ⟨fun sp' => by rw [hstep true, hstep2, ih.2],
            by rw [hstep false, hstep2, ih.2]⟩
    · by_cases hps : (u.isPunct r || u.isSpace r) = true
      · have hstepT : optNormalizeAux u (r :: rest) true
            = optNormalizeAux u rest true := by
          simp [optNormalizeAux, h128, hps]
        have hstepF : optNormalizeAux u (r :: rest) false
            = 32 :: optNormalizeAux u rest true := by
          simp [optNormalizeAux, h128, hps]
        refine ⟨fun sp' => by rw [hstepT]; exact ih.1 sp', ?_⟩
        rw [hstepF]
        have hstep2 : optNormalizeAux u (32 :: optNormalizeAux u rest true)
              false
            = 32 :: optNormalizeAux u (optNormalizeAux u rest true) true := by
          simp [optNormalizeAux, h32]
        rw [hstep2, ih.1 true]
      · have hstep : ∀ sp, optNormalizeAux u (r :: rest) sp
            = u.toLower r :: optNormalizeAux u rest false := by
          intro sp
          simp [optNormalizeAux, h128, hps]
        simp only [Bool.or_eq_true, not_or, Bool.not_eq_true] at hps
        have hc := hu.lowerClassOpt r (by omega) hps.1 hps.2
        have hstep2 : ∀ sp, optNormalizeAux u
              (u.toLower r :: optNormalizeAux u rest false) sp
            = u.toLower r ::
                optNormalizeAux u (optNormalizeAux u rest false) false := by
          intro sp
          by_cases hl : u.toLower r < 128
          · have h0 := hc.1 hl
            simp only [optNormalizeAux, if_pos hl]
            rw [if_neg (by omega), if_neg (by omega)]
          · have h0 := hc.2 (by omega)
            simp only [optNormalizeAux, if_neg hl]
            rw [if_neg (by simp [h0.1, h0.2]), hu.lowerIdem]
        exact ⟨fun sp' => by rw [hstep true, hstep2, ih.2],
          by rw [hstep false, hstep2, ih.2]⟩

/-- Idempotence of the optimized normalizer. -/
theorem optNormalize_idem (u : Uni) (hu : UniSane u) (x : List Nat) :
    optNormalize u (optNormalize u x) = optNormalize u x :=
  (optNormalizeAux_idem u hu x).2

/-- Idempotence of the default normalizer. -/
theorem defaultNormalize_idem (u : Uni) (hu : UniSane u) (x : List Nat) :
    defaultNormalize u (defaultNormalize u x) = defaultNormalize u x := by
  unfold defaultNormalize
  simp only [List.map_map]
  apply List.map_congr_left
  intro r _
  simp only [Function.comp]
  by_cases hp : u.isPunct (u.toLower r) = true
  · rw [if_pos hp, hu.lowerSpace, if_neg (by simp [hu.punctSpace])]
  · rw [if_neg hp, hu.lowerIdem, if_neg hp]

/-!
## Claim C1
-/

/-- C1 (code_bug evidence): chunk-boundary placement changes the line-mode
streaming count.  For the text `"a\r\nb"`, reading in 1-byte chunks yields
2 while the whole buffer yields 3: `processLinesOptimized` appends the
carried partial line to `lineBuffer` but never merges it into the scan of
a later chunk, and a `CR` that ends a chunk is resolved as a lone-CR line
break immediately instead of being held as carry state until the next
chunk's first byte is seen. -/
theorem c1_line_chunk_boundary_changes_count :
    processLinesSeq (aeNormalize uniAscii)
      (chunksOf 1 (bytesOfAscii "a\r\nb")) = 2 ∧
    processLinesSeq (aeNormalize uniAscii)
      (chunksOf 2 (bytesOfAscii "a\r\nb")) = 2 ∧
    processLinesSeq (aeNormalize uniAscii)
      (chunksOf 8192 (bytesOfAscii "a\r\nb")) = 3 := by
  refine ⟨?_, ?_, ?_⟩ <;> decide

/-!
## Claim C2
-/

/-- C2 (code_bug evidence): parallel mode does not reproduce the
sequential totals.  In word mode the parallel collector ignores the
`EndWord` flag and never counts a final word terminated only by end of
stream: on the single chunk `"abc"` it returns 0 where the sequential
path returns 1 (for any worker count — the total is the sum of the
per-job counts regardless of scheduling).  In line mode the parallel
producer splits only on `LF`, so for `"x\ry"` the `CR` stays inside the
job and is normalized as a character, total 3, where the sequential path
treats it as a terminator, total 2. -/
theorem c2_parallel_differs_from_sequential :
    processWordsParallel uniAscii [bytesOfAscii "abc"] = 0 ∧
    processWordsSeq uniAscii [bytesOfAscii "abc"] = 1 ∧
    processLinesParallel (aeNormalize uniAscii) [bytesOfAscii "x\ry"] = 3 ∧
    processLinesSeq (aeNormalize uniAscii) [bytesOfAscii "x\ry"] = 2 := by
  refine ⟨?_, ?_, ?_, ?_⟩ <;> decide

/-!
## Claim C3
-/

/-- C3 (counterexample): the non-streaming word-count calculator on two
empty texts does *not* return score 1 and passed: the zero-original-words
check fires before any both-empty check, yielding score 0 and
`passed = false` with an error detail. -/
theorem c3_counterexample_nonstreaming_empty :
    (lengthCompute ⟨7/10, 3/10⟩ (defaultNormalize uniAscii)
        uniAscii.isSpace false [] []).score = 0 ∧
    (lengthCompute ⟨7/10, 3/10⟩ (defaultNormalize uniAscii)
        uniAscii.isSpace false [] []).passed = false ∧
    (lengthCompute ⟨7/10, 3/10⟩ (defaultNormalize uniAscii)
        uniAscii.isSpace false [] []).details
      = [("error", "original text has zero words")] := by
  refine ⟨?_, ?_, ?_⟩ <;> rfl

/-- C3 (amended): for every configuration and non-cancelled context, the
streaming calculator returns score 1 and passed on two empty streams
(count 0 on both sides); the non-streaming word-count calculator instead
reports score 0 and `passed = false` on two empty texts, because its
zero-original-words error check precedes the both-empty case. -/
theorem c3_empty_empty_behaviour :
    (∀ cfg : StreamingConfig,
      (computeStreaming cfg (.ok 0) (.ok 0)).score = 1 ∧
      (computeStreaming cfg (.ok 0) (.ok 0)).passed = true) ∧
    (∀ cfg : SimilarityConfig, ∀ u : Uni,
      (lengthCompute cfg (defaultNormalize u) u.isSpace false [] []).score = 0 ∧
      (lengthCompute cfg (defaultNormalize u) u.isSpace false [] []).passed
        = false) := by
  constructor
  · intro cfg
    constructor <;> rfl
  · intro cfg u
    constructor <;> rfl

/-!
## Claim C4
-/

/-- C4: for every pair of counts with `origCount > 0` and every valid
configuration, the similarity computation returns
`ratio = min(origCount, augCount) / max(origCount, augCount)`,
`score = 1 − min(1, |origCount − augCount| / (origCount · maxDiffRatio))`
and `passed = (score ≥ threshold)`; in particular the 9-word original and
9-word augmented example texts yield word-mode score 1 and pass with
threshold 0.7 and max-diff-ratio 0.3. -/
theorem c4_similarity_formula (o a : Nat) (cfg : StreamingConfig)
    (ho : 0 < o) (hmdr : 0 < cfg.maxDiffRatio)
    (hth0 : 0 ≤ cfg.threshold) (hth1 : cfg.threshold ≤ 1) :
    (computeStreaming cfg (.ok o) (.ok a)).lengthRatio
        = ((min o a : Nat) : ℚ) / ((max o a : Nat) : ℚ) ∧
    (computeStreaming cfg (.ok o) (.ok a)).score
        = 1 - min 1 (|(o : ℚ) - (a : ℚ)| / ((o : ℚ) * cfg.maxDiffRatio)) ∧
    ((computeStreaming cfg (.ok o) (.ok a)).passed = true ↔
        cfg.threshold ≤ (computeStreaming cfg (.ok o) (.ok a)).score) ∧
    (lengthCompute ⟨7/10, 3/10⟩ (defaultNormalize uniAscii) uniAscii.isSpace
        false (bytesOfAscii "The quick brown fox jumps over the lazy dog.")
        (bytesOfAscii "The quick brown fox jumps over the lazy canine.")).score
      = 1 ∧
    (lengthCompute ⟨7/10, 3/10⟩ (defaultNormalize uniAscii) uniAscii.isSpace
        false (bytesOfAscii "The quick brown fox jumps over the lazy dog.")
        (bytesOfAscii "The quick brown fox jumps over the lazy canine.")).passed
      = true := by
  have ho' : o ≠ 0 := Nat.pos_iff_ne_zero.mp ho
  have hno : ¬(o = 0 ∧ a = 0) := fun h => ho' h.1
  have h9o : (fields uniAscii.isSpace (defaultNormalize uniAscii
      (bytesOfAscii "The quick brown fox jumps over the lazy dog."))).length
        = 9 := by decide
  have h9a : (fields uniAscii.isSpace (defaultNormalize uniAscii
      (bytesOfAscii "The quick brown fox jumps over the lazy canine."))).length
        = 9 := by decide
  refine ⟨?_, ?_, ?_,
    by simp [lengthCompute, scoreOf, h9o, h9a],
    by simp [lengthCompute, scoreOf, h9o, h9a]; norm_num⟩
  · simp only [computeStreaming, if_neg hno, if_neg ho', scoreOf]
    rcases le_or_lt o a with h | h
    · rw [if_neg (by omega), Nat.min_eq_left h, Nat.max_eq_right h]
    · rw [if_pos (by omega), Nat.min_eq_right (le_of_lt h),
        Nat.max_eq_left (le_of_lt h)]
  · simp only [computeStreaming, if_neg hno, if_neg ho', scoreOf]
    rcases le_or_lt (|(o : ℚ) - (a : ℚ)| / ((o : ℚ) * cfg.maxDiffRatio)) 1
      with h | h
    · rw [if_neg (not_lt.mpr h), min_eq_right h]
    · rw [if_pos h, min_eq_left (le_of_lt h)]
  · simp only [computeStreaming, if_neg hno, if_neg ho', scoreOf,
      decide_eq_true_eq, ge_iff_le]

/-- C4 witness: the formula theorem applied at counts 9 and 9 with
threshold 0.7 and max-diff-ratio 0.3. -/
theorem c4_similarity_formula_witness :
    (computeStreaming ⟨7/10, 3/10, 8192, .wordByWord⟩ (.ok 9) (.ok 9)).score
      = 1 - min 1 (|(9 : ℚ) - (9 : ℚ)| / ((9 : ℚ) * ((3 : ℚ)/10))) :=
  (c4_similarity_formula 9 9 ⟨7/10, 3/10, 8192, .wordByWord⟩ (by norm_num)
    (by norm_num) (by norm_num) (by norm_num)).2.1

/-!
## Claim C5
-/

/-- C5 (counterexample): the normalizers do not collapse every
punctuation/whitespace run to one space.  The default normalizer maps
`"!!"` to two spaces, not one; the allocation-efficient ASCII path leaves
a tab (whitespace) unchanged instead of emitting a space, and for
`"a! b"` emits two spaces because a literal space resets its collapse
flag. -/
theorem c5_counterexample_no_collapse :
    defaultNormalize uniAscii (bytesOfAscii "!!") = bytesOfAscii "  " ∧
    defaultNormalize uniAscii (bytesOfAscii "!!") ≠ bytesOfAscii " " ∧
    aeNormalize uniAscii (bytesOfAscii "a\tb") = bytesOfAscii "a\tb" ∧
    aeNormalize uniAscii (bytesOfAscii "a\tb") ≠ bytesOfAscii "a b" ∧
    aeNormalize uniAscii (bytesOfAscii "a! b") = bytesOfAscii "a  b" := by
  refine ⟨?_, ?_, ?_, ?_, ?_⟩ <;> decide

/-- C5 (amended): the allocation-efficient ASCII fast path collapses only
punctuation-generated spaces and lowercases uppercase, emitting all other
characters — whitespace included — unchanged (and resetting the collapse
flag); the default normalizer simply lowercases each code point and maps
punctuation to a space, with no collapsing at all; the empty string maps
to the empty string in both. -/
theorem c5_amended_normalizer_behaviour :
    (∀ src : List Nat, normalizeASCII src = amendedAsciiNormalize src false) ∧
    (∀ (u : Uni) (text : List Nat),
      defaultNormalize u text
        = text.map fun r =>
            if u.isPunct (u.toLower r) then 32 else u.toLower r) := by
  constructor
  · intro src
    unfold normalizeASCII
    suffices h : ∀ sp, normalizeASCIIAux src sp = amendedAsciiNormalize src sp
      from h false
    induction src with
    | nil => intro sp; rfl
    | cons b rest ih =>
      intro sp
      by_cases hb : b < 128
      · by_cases hp : asciiIsPunct b = true
        · have hch : aeTable b = ⟨true, 32⟩ := by simp [aeTable, hp]
          cases sp <;>
            simp [normalizeASCIIAux, amendedAsciiNormalize, hb, hch, hp, ih]
        · by_cases hu : asciiIsUpper b = true
          · have hlow : ¬asciiToLower b = 32 := by
              simp only [asciiIsUpper, Bool.and_eq_true, decide_eq_true_eq] at hu
              unfold asciiToLower
              rw [if_pos hu]
              omega
            have hch : aeTable b = ⟨true, asciiToLower b⟩ := by
              simp [aeTable, hp, hu]
            simp [normalizeASCIIAux, amendedAsciiNormalize, hb, hch, hp, hu,
              hlow, ih]
          · have hch : aeTable b = ⟨false, 0⟩ := by simp [aeTable, hp, hu]
            simp [normalizeASCIIAux, amendedAsciiNormalize, hb, hch, hp, hu, ih]
      · have hp : asciiIsPunct b = false := by
          simp only [asciiIsPunct, Bool.or_eq_false_iff, decide_eq_false_iff_not]
          omega
        have hu : asciiIsUpper b = false := by
          simp only [asciiIsUpper, Bool.and_eq_false_iff, decide_eq_false_iff_not]
          omega
        simp [normalizeASCIIAux, amendedAsciiNormalize, hb, hp, hu, aeTable, ih]
  · intro u text
    unfold defaultNormalize
    rw [List.map_map]
    rfl

/-!
## Claim C6
-/

/-- C6 (counterexample): the streaming calculator constructor performs no
validation: a threshold of 2 and a max-diff-ratio of −1 are accepted
without error, so invalid values do reach compute time on the streaming
path. -/
theorem c6_counterexample_streaming_no_validation :
    newStreamingCalculator ⟨2, -1, 8192, .lineByLine⟩
      = .ok ⟨2, -1, 8192, .lineByLine⟩ := by
  rfl

/-- C6 (amended): the non-streaming constructors validate eagerly — both
`lengthsimilarity.New` and `length.SimilarityConfig.Validate` fail
exactly when the threshold is outside `[0, 1]` or the max-diff-ratio is
not positive — but `stream.NewStreamingCalculator` performs no
validation and succeeds on every configuration. -/
theorem c6_validation_behaviour :
    (∀ th mdr : ℚ,
      (lsNew th mdr).isOk = false ↔ (th < 0 ∨ th > 1 ∨ mdr ≤ 0)) ∧
    (∀ cfg : SimilarityConfig,
      (configValidate cfg).isOk = false ↔
        (cfg.threshold < 0 ∨ cfg.threshold > 1 ∨ cfg.maxDiffRatio ≤ 0)) ∧
    (∀ cfg : StreamingConfig, newStreamingCalculator cfg = .ok cfg) := by
  refine ⟨?_, ?_, fun _ => rfl⟩
  · intro th mdr
    unfold lsNew
    split_ifs with h1 h2
    · simpa [Except.isOk, Except.toBool] using Or.elim h1 Or.inl (fun h => Or.inr (Or.inl h))
    · simpa [Except.isOk, Except.toBool] using Or.inr (Or.inr h2)
    · push_neg at h1
      simp only [Except.isOk, Except.toBool, Bool.true_eq_false, false_iff]
      intro h
      rcases h with h | h | h
      · exact absurd h (not_lt.mpr h1.1)
      · exact absurd h (not_lt.mpr h1.2)
      · exact h2 h
  · intro cfg
    unfold configValidate
    split_ifs with h1 h2
    · simpa [Except.isOk, Except.toBool] using Or.elim h1 Or.inl (fun h => Or.inr (Or.inl h))
    · simpa [Except.isOk, Except.toBool] using Or.inr (Or.inr h2)
    · push_neg at h1
      simp only [Except.isOk, Except.toBool, Bool.true_eq_false, false_iff]
      intro h
      rcases h with h | h | h
      · exact absurd h (not_lt.mpr h1.1)
      · exact absurd h (not_lt.mpr h1.2)
      · exact h2 h

/-!
## Claim C7
-/

/-- On ASCII-only input the two normalizer paths walk the same branches:
the Unicode fallback's per-byte case for bytes below 128 is the ASCII
fast path's loop body, so the outputs coincide for any fuel at least the
input length. -/
theorem normalizeAux_ascii_agree (u : Uni) :
    ∀ (src : List Nat) (fuel : Nat) (sp : Bool),
      src.length ≤ fuel → (∀ b ∈ src, b < 128) →
      normalizeASCIIAux src sp = normalizeUnicodeAux u fuel src sp := by
  intro src
  induction src with
  | nil => intro fuel sp hf hb; cases fuel <;> rfl
  | cons b rest ih =>
    intro fuel sp hf hb
    have hblt : b < 128 := hb b (List.mem_cons_self _ _)
    have hrest : ∀ x ∈ rest, x < 128 :=
      fun x hx => hb x (List.mem_cons_of_mem _ hx)
    cases fuel with
    | zero => simp at hf
    | succ f =>
      have hf' : rest.length ≤ f := by
        simp only [List.length_cons] at hf; omega
      simp only [normalizeASCIIAux, normalizeUnicodeAux, if_pos hblt]
      split_ifs <;> simp [ih f _ hf' hrest]

/-- C7: for every input consisting only of ASCII bytes, the
allocation-efficient normalizer's ASCII fast path and its Unicode
fallback path produce byte-identical output (for any instantiation of
the Unicode tables — the fallback never consults them below 128). -/
theorem c7_ascii_fast_path_equals_fallback (u : Uni) (src : List Nat)
    (h : ∀ b ∈ src, b < 128) :
    normalizeASCII src = normalizeUnicode u src :=
  normalizeAux_ascii_agree u src src.length false le_rfl h

/-- C7 witness: both paths agree on the concrete ASCII input
`"Hello, World! 42"`. -/
theorem c7_ascii_fast_path_equals_fallback_witness :
    normalizeASCII (bytesOfAscii "Hello, World! 42")
      = normalizeUnicode uniAscii (bytesOfAscii "Hello, World! 42") :=
  c7_ascii_fast_path_equals_fallback uniAscii
    (bytesOfAscii "Hello, World! 42") (by decide)

/-!
## Claim C10
-/

/-- C10 (counterexample): the count is not the sum of the normalized rune
counts of the non-empty logical lines, and inserting a newline byte can
change it: `"a\r"` (one logical line `"a"`) counts 1, but appending an
`LF` after the `CR` — `"a\r\n"`, still one logical line `"a"` — counts 2,
because the slice taken at the `LF` of a CRLF pair still contains the
`CR` byte. -/
theorem c10_counterexample_crlf_keeps_cr :
    processLinesSeq (aeNormalize uniAscii) [bytesOfAscii "a\r"] = 1 ∧
    processLinesSeq (aeNormalize uniAscii) [bytesOfAscii "a\r\n"] = 2 := by
  exact ⟨by decide, by decide⟩

/-- `splitLF` always produces at least one segment. -/
theorem splitLF_ne_nil (bs : List Nat) : splitLF bs ≠ [] := by
  cases bs with
  | nil => simp [splitLF]
  | cons b rest =>
    simp only [splitLF]
    split
    · simp
    · split <;> simp

/-- Splitting around an explicit `LF` concatenates the two splits. -/
theorem splitLF_append_lf (xs ys : List Nat) :
    splitLF (xs ++ 10 :: ys) = splitLF xs ++ splitLF ys := by
  induction xs with
  | nil => simp [splitLF]
  | cons b xs ih =>
    by_cases hb : b = 10
    · subst hb
      simp [splitLF, ih]
    · have hne := splitLF_ne_nil xs
      cases hxs : splitLF xs with
      | nil => exact absurd hxs hne
      | cons t ts =>
        simp only [List.cons_append, splitLF, if_neg hb, List.append_eq]
        rw [ih, hxs]
        simp

/-- On CR-free input the chunk scan is exactly the LF split: it counts
every segment but the last and leaves the last as the open segment (the
accumulated `seg` prefixes the first segment). -/
theorem scanLineChunk_no_cr (pl : List Nat → Nat) :
    ∀ (c : List Nat) (seg : List Nat), 13 ∉ c →
      scanLineChunk pl c seg
        = lineTotals pl ((seg ++ ((splitLF c).headD [])) :: (splitLF c).tail) := by
  intro c
  induction c with
  | nil => intro seg h; simp [scanLineChunk, splitLF, lineTotals]
  | cons b rest ih =>
    intro seg h
    have hrest : 13 ∉ rest := fun hx => h (List.mem_cons_of_mem _ hx)
    have hb13 : ¬b = 13 := fun hx => h (hx ▸ List.mem_cons_self _ _)
    by_cases hb : b = 10
    · subst hb
      have hne := splitLF_ne_nil rest
      cases hsplit : splitLF rest with
      | nil => exact absurd hsplit hne
      | cons t ts =>
        simp only [scanLineChunk, if_pos rfl, splitLF, ih [] hrest, hsplit,
          List.headD_cons, List.tail_cons, List.nil_append, List.append_nil]
        cases ts with
        | nil => simp [lineTotals]
        | cons t' ts' => simp [lineTotals, Nat.add_comm]
    · have hne := splitLF_ne_nil rest
      cases hsplit : splitLF rest with
      | nil => exact absurd hsplit hne
      | cons t ts =>
        simp only [scanLineChunk, if_neg hb, if_neg hb13, splitLF, hsplit,
          ih (seg ++ [b]) hrest, List.headD_cons, List.tail_cons]
        have : seg ++ [b] ++ t = seg ++ (b :: t) := by
          simp [List.append_assoc]
        rw [this]

/-- Folding the scan total with the leftover recovers the sum over all
segments, provided the empty segment counts 0 (as `processLine` does). -/
theorem lineTotals_sum (pl : List Nat → Nat) (h0 : pl [] = 0) :
    ∀ segs : List (List Nat),
      (lineTotals pl segs).1 + pl (lineTotals pl segs).2
        = (segs.map pl).sum := by
  intro segs
  induction segs with
  | nil => simp [lineTotals, h0]
  | cons s rest ih =>
    cases rest with
    | nil => simp [lineTotals]
    | cons s' rest' =>
      simp only [lineTotals, List.map_cons, List.sum_cons] at *
      omega

/-- A single whole-buffer run is the scan total plus the leftover
segment's count. -/
theorem processLinesSeq_single (norm : List Nat → List Nat)
    (buf : List Nat) :
    processLinesSeq norm [buf]
      = (scanLineChunk (processLineCount norm) buf []).1
        + processLineCount norm
            (scanLineChunk (processLineCount norm) buf []).2 := by
  unfold processLinesSeq
  simp only [List.foldl_cons, List.foldl_nil]
  by_cases h : (scanLineChunk (processLineCount norm) buf []).2 = []
  · simp [h, processLineCount]
  · simp [h]

/-- C10 (amended): zero-length lines contribute nothing (`processLine`
returns without touching the count); for CR-free input processed as a
single buffer the returned count is the sum of the per-line counts of
its LF-separated lines (empty ones contributing 0); consequently
duplicating an LF — inserting an extra newline byte immediately after an
existing one — never changes the returned count.  (With a CR in the
input this fails, as the counterexample shows: a CRLF line keeps its CR
byte.) -/
theorem c10_line_count_characterization (norm : List Nat → List Nat) :
    processLineCount norm [] = 0 ∧
    (∀ buf : List Nat, 13 ∉ buf →
      processLinesSeq norm [buf]
        = ((splitLF buf).map (processLineCount norm)).sum) ∧
    (∀ xs ys : List Nat, 13 ∉ xs → 13 ∉ ys →
      processLinesSeq norm [xs ++ 10 :: ys]
        = processLinesSeq norm [xs ++ 10 :: 10 :: ys]) := by
  have hpl0 : processLineCount norm [] = 0 := rfl
  have hchar : ∀ buf : List Nat, 13 ∉ buf →
      processLinesSeq norm [buf]
        = ((splitLF buf).map (processLineCount norm)).sum := by
    intro buf hcr
    rw [processLinesSeq_single, scanLineChunk_no_cr _ buf [] hcr,
      lineTotals_sum _ hpl0]
    have hne := splitLF_ne_nil buf
    cases hsplit : splitLF buf with
    | nil => exact absurd hsplit hne
    | cons t ts => simp
  refine ⟨hpl0, hchar, ?_⟩
  intro xs ys hxs hys
  have h1 : (13 : Nat) ∉ xs ++ 10 :: ys := by
    intro hmem
    rcases List.mem_append.mp hmem with h | h
    · exact hxs h
    · rcases List.mem_cons.mp h with h | h
      · omega
      · exact hys h
  have h2 : (13 : Nat) ∉ xs ++ 10 :: 10 :: ys := by
    intro hmem
    rcases List.mem_append.mp hmem with h | h
    · exact hxs h
    · rcases List.mem_cons.mp h with h | h
      · omega
      · rcases List.mem_cons.mp h with h | h
        · omega
        · exact hys h
  rw [hchar _ h1, hchar _ h2, splitLF_append_lf]
  have h3 : (10 :: 10 :: ys) = ([] : List Nat) ++ 10 :: 10 :: ys := rfl
  rw [show xs ++ 10 :: 10 :: ys = xs ++ 10 :: (10 :: ys) from rfl,
    splitLF_append_lf]
  have : splitLF (10 :: ys) = [] :: splitLF ys := by
    simp [splitLF]
  rw [this]
  simp [hpl0]

/-- C10 witness: the characterization applied at the CR-free buffer
`"ab\ncd"` and the LF-duplication instance `"ab\ncd"` vs `"ab\n\ncd"`. -/
theorem c10_line_count_characterization_witness :
    processLinesSeq (aeNormalize uniAscii) [bytesOfAscii "ab\ncd"]
      = ((splitLF (bytesOfAscii "ab\ncd")).map
          (processLineCount (aeNormalize uniAscii))).sum ∧
    processLinesSeq (aeNormalize uniAscii)
        [bytesOfAscii "ab" ++ 10 :: bytesOfAscii "cd"]
      = processLinesSeq (aeNormalize uniAscii)
          [bytesOfAscii "ab" ++ 10 :: 10 :: bytesOfAscii "cd"] :=
  ⟨(c10_line_count_characterization (aeNormalize uniAscii)).2.1
      (bytesOfAscii "ab\ncd") (by decide),
    (c10_line_count_characterization (aeNormalize uniAscii)).2.2
      (bytesOfAscii "ab") (bytesOfAscii "cd") (by decide) (by decide)⟩

/-!
## Claim C9
-/

/-- C9: when processing the original stream fails (cancellation or an I/O
error other than clean end of stream), `ComputeStreaming` returns a
result value with score 0, `passed = false` and a machine-readable reason
under the `error` key of the details map — and the result does not depend
on the augmented stream at all (it is never consulted). -/
theorem c9_original_failure_short_circuits (cfg : StreamingConfig)
    (e : String) (aug aug' : Except String Nat) :
    computeStreaming cfg (.error e) aug = computeStreaming cfg (.error e) aug' ∧
    (computeStreaming cfg (.error e) aug).score = 0 ∧
    (computeStreaming cfg (.error e) aug).passed = false ∧
    (computeStreaming cfg (.error e) aug).details
      = [("error", "error processing original stream: " ++ e)] := by
  refine ⟨rfl, rfl, rfl, rfl⟩

/-!
## Claim C8
-/

/-- C8: for every string `x` and each provided normalizer implementation
— the default normalizer, the allocation-efficient normalizer, the
optimized normalizer and the fast normalizer — normalization is
idempotent: `Normalize (Normalize x) = Normalize x`.  The Go `unicode`
tables are abstracted by `u` and the facts `UniSane u`, all true of the
real tables. -/
theorem c8_normalize_idempotent (u : Uni) (hu : UniSane u)
    (x : List Nat) :
    defaultNormalize u (defaultNormalize u x) = defaultNormalize u x ∧
    aeNormalize u (aeNormalize u x) = aeNormalize u x ∧
    optNormalize u (optNormalize u x) = optNormalize u x ∧
    fastNormalize u (fastNormalize u x) = fastNormalize u x :=
  ⟨defaultNormalize_idem u hu x, aeNormalize_idem u hu x,
    optNormalize_idem u hu x, fastNormalize_idem u hu x⟩

/-- The idempotence theorem applied to the ASCII instance of the unicode
tables and a concrete mixed-case string with punctuation. -/
theorem c8_normalize_idempotent_witness :
    UniSane uniAscii ∧
    (defaultNormalize uniAscii (defaultNormalize uniAscii
        (bytesOfAscii "Hello, World!"))
      = defaultNormalize uniAscii (bytesOfAscii "Hello, World!") ∧
    aeNormalize uniAscii (aeNormalize uniAscii
        (bytesOfAscii "Hello, World!"))
      = aeNormalize uniAscii (bytesOfAscii "Hello, World!") ∧
    optNormalize uniAscii (optNormalize uniAscii
        (bytesOfAscii "Hello, World!"))
      = optNormalize uniAscii (bytesOfAscii "Hello, World!") ∧
    fastNormalize uniAscii (fastNormalize uniAscii
        (bytesOfAscii "Hello, World!"))
      = fastNormalize uniAscii (bytesOfAscii "Hello, World!")) :=
  ⟨uniAsciiSane,
    c8_normalize_idempotent uniAscii uniAsciiSane
      (bytesOfAscii "Hello, World!")⟩

end LenSim
